import Mathlib

/-!
Verification development for the bounded-depth same-origin web crawler
(`src/pc.py`, class `AdvancedWebCrawler`).

URL strings are embedded as `List Char`.  The crawler's URL handling is
built on Python's `urllib.parse`; the relevant stdlib functions
(`urlparse`, `urlunparse`, `urljoin` and their helpers) are embedded
faithfully below, following CPython's `urllib/parse.py`, restricted to
inputs free of the characters CPython's WHATWG sanitisation removes
(tab, CR, LF and leading or trailing C0-control and space characters),
on which that sanitisation is the identity.  The IPv6-bracket
`ValueError` path of `urlsplit` is not modelled (no claim involves
bracketed hosts).  Python's `str.lower` and `str.strip` are modelled on
the ASCII range, which is exact for every character class the crawler
inspects (schemes, extensions, whitespace).
-/

namespace Crawler

/-- ASCII lower-casing of one character (Python `str.lower` on ASCII). -/
def lowerChar (c : Char) : Char :=
  if c = 'A' then 'a' else if c = 'B' then 'b' else if c = 'C' then 'c'
  else if c = 'D' then 'd' else if c = 'E' then 'e' else if c = 'F' then 'f'
  else if c = 'G' then 'g' else if c = 'H' then 'h' else if c = 'I' then 'i'
  else if c = 'J' then 'j' else if c = 'K' then 'k' else if c = 'L' then 'l'
  else if c = 'M' then 'm' else if c = 'N' then 'n' else if c = 'O' then 'o'
  else if c = 'P' then 'p' else if c = 'Q' then 'q' else if c = 'R' then 'r'
  else if c = 'S' then 's' else if c = 'T' then 't' else if c = 'U' then 'u'
  else if c = 'V' then 'v' else if c = 'W' then 'w' else if c = 'X' then 'x'
  else if c = 'Y' then 'y' else if c = 'Z' then 'z' else c

/-- ASCII lower-casing of a string. -/
def lowerStr (l : List Char) : List Char := l.map lowerChar

/-- Python whitespace stripped by `str.strip()` (ASCII range). -/
def isWs (c : Char) : Bool :=
  c = ' ' ∨ c = '\t' ∨ c = '\n' ∨ c = '\r' ∨ c = '\x0b' ∨ c = '\x0c'

/-- Python `str.strip()` (ASCII whitespace). -/
def stripWs (l : List Char) : List Char :=
  ((l.dropWhile isWs).reverse.dropWhile isWs).reverse

/-- Python `l.startswith(pre)`, as `leadsWith pre l`. -/
def leadsWith : List Char → List Char → Bool
  | [], _ => true
  | _ :: _, [] => false
  | p :: ps, c :: cs => p = c && leadsWith ps cs

/-- Python `l.endswith(suf)`, as `endsWithL suf l`. -/
def endsWithL (suf l : List Char) : Bool := leadsWith suf.reverse l.reverse

/-- Python `set.add`: insert only when absent (kept in arrival order). -/
def addSet (acc : List (List Char)) (x : List Char) : List (List Char) :=
  if x ∈ acc then acc else acc ++ [x]

/-- Python `s.rstrip('/')`: drop every trailing slash. -/
def rstripSlash (l : List Char) : List Char :=
  (l.reverse.dropWhile (fun c => c = '/')).reverse

/-- Python `s.split(c, 1)` restricted to the first component and the rest:
`(before, after)`; when `c` is absent the result is `(l, [])`, matching the
guarded uses `if c in s: s.split(c, 1)` in `urlsplit` (the unsplit case also
leaves the second component empty). -/
def splitOnce (a : Char) (l : List Char) : List Char × List Char :=
  (l.takeWhile (fun c => c ≠ a), (l.dropWhile (fun c => c ≠ a)).drop 1)

/-- Split at the last occurrence of `a`: `l = fst ++ [a] ++ snd` with
`a` absent from `snd` (Python `rfind`). -/
def splitLastChar (a : Char) (l : List Char) : Option (List Char × List Char) :=
  match l.reverse.dropWhile (fun c => c ≠ a) with
  | [] => none
  | _ :: ra => some (ra.reverse, (l.reverse.takeWhile (fun c => c ≠ a)).reverse)

/-- CPython `scheme_chars`: letters, digits and `+`, `-`, `.`. -/
def isSchemeChar (c : Char) : Bool :=
  c.isAlpha ∨ c.isDigit ∨ c = '+' ∨ c = '-' ∨ c = '.'

/-- The result type of `urlparse`: the six components of
`scheme://netloc/path;params?query#fragment`. -/
structure UrlParts where
  scheme : List Char
  netloc : List Char
  path : List Char
  params : List Char
  query : List Char
  fragment : List Char
deriving DecidableEq

/-- The scheme-detection step of CPython `urlsplit`: at the first `:`,
when everything before it is a letter followed by scheme characters, the
scheme is that prefix lower-cased and the rest follows the colon. -/
def schemeSplit (u : List Char) : Option (List Char × List Char) :=
  match u.dropWhile (fun c => c ≠ ':') with
  | [] => none
  | _ :: rest =>
    match u.takeWhile (fun c => c ≠ ':') with
    | [] => none
    | c :: cs =>
      if c.isAlpha ∧ cs.all isSchemeChar then some (lowerStr (c :: cs), rest)
      else none

/-- A character that ends the netloc section (`_splitnetloc` scans to the
first of `/`, `?`, `#`). -/
def badNetChar (c : Char) : Bool := c = '/' ∨ c = '?' ∨ c = '#'

/-- The scheme step of `urlsplit`: the detected scheme (lower-cased) and
the remainder, or the default scheme and the whole string. -/
def schemeStep (dscheme u : List Char) : List Char × List Char :=
  match schemeSplit u with
  | some sr => sr
  | none => (dscheme, u)

/-- The netloc step of `urlsplit` (`if url[:2] == '//': _splitnetloc`):
the netloc (scan to the first of `/?#` after the `//`) and the remainder. -/
def netlocStep (rest : List Char) : List Char × List Char :=
  if rest.take 2 = ['/', '/'] then
    ((rest.drop 2).takeWhile (fun c => ¬ badNetChar c),
     (rest.drop 2).dropWhile (fun c => ¬ badNetChar c))
  else ([], rest)

/-- CPython `urlsplit(url, scheme=dscheme)`:
`(scheme, netloc, path, query, fragment)`. -/
def urlsplit (dscheme u : List Char) : List Char × List Char × List Char × List Char × List Char :=
  let sr := schemeStep dscheme u
  let nr := netlocStep sr.2
  let rf := splitOnce '#' nr.2
  let pq := splitOnce '?' rf.1
  (sr.1, nr.1, pq.1, pq.2, rf.2)

/-- CPython `_splitparams`, reached only when `;` occurs in the
path section: the params are what follows the first `;` at or after the
last `/` (after the last `/` in fact, since that position holds `/`). -/
def splitparams (p : List Char) : List Char × List Char :=
  if ';' ∈ p then
    if '/' ∈ p then
      match splitLastChar '/' p with
      | some (a, b) =>
        if ';' ∈ b then
          (a ++ '/' :: b.takeWhile (fun c => c ≠ ';'),
           (b.dropWhile (fun c => c ≠ ';')).drop 1)
        else (p, [])
      | none => (p, [])
    else (p.takeWhile (fun c => c ≠ ';'), (p.dropWhile (fun c => c ≠ ';')).drop 1)
  else (p, [])

/-- CPython `urlparse(u, scheme=dscheme)`. -/
def urlparseWith (dscheme u : List Char) : UrlParts :=
  let t := urlsplit dscheme u
  let pp := splitparams t.2.2.1
  ⟨t.1, t.2.1, pp.1, pp.2, t.2.2.2.1, t.2.2.2.2⟩

/-- CPython `urlparse(u)` (empty default scheme), as the crawler calls it. -/
def urlparse (u : List Char) : UrlParts := urlparseWith [] u

/-- The CPython `urlunsplit` fix-up: a nonempty url section not starting
with a slash gains one. -/
def slashAdj (url : List Char) : List Char :=
  if url ≠ [] ∧ url.head? ≠ some '/' then '/' :: url else url

/-- CPython `urlunsplit`. -/
def urlunsplit (scheme netloc url query fragment : List Char) : List Char :=
  let u1 :=
    if netloc ≠ [] ∨ (url ≠ [] ∧ url.take 2 = ['/', '/']) then
      '/' :: '/' :: (netloc ++ slashAdj url)
    else url
  let u2 := if scheme ≠ [] then scheme ++ ':' :: u1 else u1
  let u3 := if query ≠ [] then u2 ++ '?' :: query else u2
  if fragment ≠ [] then u3 ++ '#' :: fragment else u3

/-- CPython `urlunparse`. -/
def urlunparse (r : UrlParts) : List Char :=
  urlunsplit r.scheme r.netloc
    (if r.params ≠ [] then r.path ++ ';' :: r.params else r.path)
    r.query r.fragment

/-- CPython `uses_relative`. -/
def uses_relative : List (List Char) :=
  ["", "ftp", "http", "gopher", "nntp", "imap", "wais", "file", "https",
   "shttp", "mms", "prospero", "rtsp", "rtspu", "sftp", "svn", "svn+ssh",
   "ws", "wss"].map String.toList

/-- CPython `uses_netloc`. -/
def uses_netloc : List (List Char) :=
  ["", "ftp", "http", "gopher", "nntp", "telnet", "imap", "wais", "file",
   "mms", "https", "shttp", "snews", "prospero", "rtsp", "rtspu", "rsync",
   "svn", "svn+ssh", "sftp", "nfs", "git", "git+ssh", "ws", "wss"].map String.toList

/-- The CPython `urljoin` middle filter (`segments[1:-1]` keeps only
nonempty entries):
drop empty segments, keeping the first and last untouched. -/
def filterMiddle (l : List (List Char)) : List (List Char) :=
  match l with
  | [] => []
  | [a] => [a]
  | a :: rest =>
    a :: (rest.dropLast.filter (fun s => s ≠ [])) ++ rest.drop (rest.length - 1)

/-- The `..`/`.` resolution loop of CPython `urljoin` (`pop` on an empty
list is a no-op through the caught `IndexError`). -/
def resolveSegs (segs : List (List Char)) : List (List Char) :=
  segs.foldl
    (fun acc seg =>
      if seg = ['.', '.'] then acc.dropLast
      else if seg = ['.'] then acc
      else acc ++ [seg]) []

/-- CPython `urljoin`. -/
def urljoin (base url : List Char) : List Char :=
  if base = [] then url
  else if url = [] then base
  else
    let b := urlparseWith [] base
    let t := urlparseWith b.scheme url
    if t.scheme ≠ b.scheme ∨ t.scheme ∉ uses_relative then url
    else
      let nl? : Option (List Char) :=
        if t.scheme ∈ uses_netloc then
          if t.netloc ≠ [] then none else some b.netloc
        else some t.netloc
      match nl? with
      | none => urlunparse t
      | some nl =>
        if t.path = [] ∧ t.params = [] then
          let q := if t.query = [] then b.query else t.query
          urlunparse ⟨t.scheme, nl, b.path, b.params, q, t.fragment⟩
        else
          let base_parts := b.path.splitOn '/'
          let base_parts :=
            if base_parts.getLast? ≠ some [] then base_parts.dropLast else base_parts
          let segments :=
            if t.path.head? = some '/' then t.path.splitOn '/'
            else filterMiddle (base_parts ++ t.path.splitOn '/')
          let resolved := resolveSegs segments
          let resolved :=
            if segments.getLast? = some ['.'] ∨ segments.getLast? = some ['.', '.']
            then resolved ++ [[]] else resolved
          urlunparse ⟨t.scheme, nl, List.intercalate ['/'] resolved, t.params, t.query, t.fragment⟩

/-! ## The crawler's own state and configuration (`AdvancedWebCrawler.__init__`) -/

/-- The immutable configuration `__init__` derives from its arguments:
`base_url` is the argument with trailing slashes stripped, `base_domain`
and `scheme` come from parsing the unstripped argument (scheme defaulting
to `http`).  `max_workers` and `delay` only shape timing, not the
sequential semantics embedded here, and are omitted. -/
structure Config where
  base_url : List Char
  base_domain : List Char
  scheme : List Char
  max_depth : Nat

/-- The constructor `AdvancedWebCrawler.__init__` (the parts of it the crawl semantics use). -/
def mkConfig (raw : List Char) (max_depth : Nat) : Config :=
  { base_url := rstripSlash raw
    base_domain := (urlparse raw).netloc
    scheme := if (urlparse raw).scheme = [] then "http".toList else (urlparse raw).scheme
    max_depth := max_depth }

/-- The path rewrite inside `normalize_url`: empty path becomes `/`; a
non-root path loses all trailing slashes. -/
def fixPath (p : List Char) : List Char :=
  let p := if p = [] then ['/'] else p
  if p ≠ ['/'] ∧ p.getLast? = some '/' then rstripSlash p else p

/-- The method `AdvancedWebCrawler.normalize_url`: parse, default the scheme and
netloc from the configuration, rewrite the path, re-assemble. -/
def normalize_url (cfg : Config) (url : List Char) : List Char :=
  let p := urlparse url
  let p := if p.scheme = [] then { p with scheme := cfg.scheme } else p
  let p := if p.netloc = [] then { p with netloc := cfg.base_domain } else p
  urlunparse { p with path := fixPath p.path }

/-- The extension blacklist of `is_valid_link` (CSS/JS deliberately kept). -/
def invalid_extensions : List (List Char) :=
  [".jpg", ".jpeg", ".png", ".gif", ".bmp", ".ico", ".svg",
   ".pdf", ".doc", ".docx", ".xls", ".xlsx", ".ppt", ".pptx",
   ".mp4", ".mp3", ".avi", ".mov", ".wmv", ".flv",
   ".woff", ".woff2", ".ttf", ".eot",
   ".zip", ".rar", ".tar", ".gz", ".7z"].map String.toList

/-- The method `AdvancedWebCrawler.is_valid_link`: reject a nonempty netloc different
from the origin host, then reject blacklisted path extensions.  (The
`except: return False` arm guards `urlparse`'s IPv6-bracket `ValueError`,
which the embedding does not model.) -/
def is_valid_link (cfg : Config) (url : List Char) : Bool :=
  let p := urlparse url
  if p.netloc ≠ [] ∧ p.netloc ≠ cfg.base_domain then false
  else ¬ invalid_extensions.any (fun e => endsWithL e (lowerStr p.path))

/-- The truncation `link.split('#')[0].split('?')[0]` in `extract_links`: truncate a raw
candidate at its first `#` and first `?`. -/
def strip_frag_query (l : List Char) : List Char :=
  (l.takeWhile (fun c => c ≠ '#')).takeWhile (fun c => c ≠ '?')

/-- The protocols `extract_links` skips. -/
def skippedSchemes : List (List Char) :=
  ["javascript:", "mailto:", "tel:"].map String.toList

/-- One regex pattern's contribution to extraction: either the list of
matched strings `re.findall` produced, or a failure of that pattern (the
event the `try/except` arms catch).  The regex engine itself is external
(`re`); its match lists are inputs of the embedding. -/
inductive PatRun where
  | ok (matches_ : List (List Char))
  | err
deriving DecidableEq

/-- The candidate a raw `extract_links` match turns into, before the
validity filter: strip, drop empties, cut fragment/query, skip
`javascript:`-style protocols, absolutise (via `urljoin` against the page
URL unless already `http(s)://`), normalize. -/
def markup_candidate (cfg : Config) (page raw : List Char) : Option (List Char) :=
  let l := stripWs raw
  if l = [] then none
  else
    let l := strip_frag_query l
    if skippedSchemes.any (fun s => leadsWith s (lowerStr l)) then none
    else
      let abs :=
        if leadsWith "http://".toList l ∨ leadsWith "https://".toList l then l
        else urljoin page l
      some (normalize_url cfg abs)

/-- The per-match body of `extract_links`: the candidate, filtered through
`is_valid_link` and added to the set. -/
def process_markup_link (cfg : Config) (page : List Char)
    (acc : List (List Char)) (raw : List Char) : List (List Char) :=
  match markup_candidate cfg page raw with
  | none => acc
  | some n => if is_valid_link cfg n then addSet acc n else acc

/-- The method `AdvancedWebCrawler.extract_links` over the five patterns' runs: each
pattern is wrapped in its own `try/except`, so a failing pattern is
skipped and the remaining patterns still run. -/
def extract_links_run (cfg : Config) (page : List Char) (pats : List PatRun) :
    List (List Char) :=
  pats.foldl
    (fun acc pr =>
      match pr with
      | .err => acc
      | .ok found => found.foldl (process_markup_link cfg page) acc) []

/-- The per-match body of `find_potential_paths`: the path is appended to
the crawl's `base_url` (not resolved against the current page), normalized
and filtered.  No fragment/query stripping happens here. -/
def process_mined_path (cfg : Config) (acc : List (List Char))
    (path : List Char) : List (List Char) :=
  let full := normalize_url cfg (cfg.base_url ++ path)
  if is_valid_link cfg full then addSet acc full else acc

/-- The method `AdvancedWebCrawler.find_potential_paths` over its pattern runs (the
five JS patterns followed by the comment-mining passes, all inside one
`try`): a failing step returns the set accumulated so far, abandoning
every later step. -/
def find_potential_paths_go (cfg : Config) :
    List PatRun → List (List Char) → List (List Char)
  | [], acc => acc
  | .err :: _, acc => acc
  | .ok found :: rest, acc =>
    find_potential_paths_go cfg rest (found.foldl (process_mined_path cfg) acc)

/-- Running `find_potential_paths` from the empty set. -/
def find_potential_paths_run (cfg : Config) (pats : List PatRun) : List (List Char) :=
  find_potential_paths_go cfg pats []

/-! ## Fetching and the crawl loop -/

/-- The error taxonomy of `fetch_url`'s `except` arms. -/
inductive ErrKind where
  | connRefused
  | timeout
  | otherError
deriving DecidableEq

/-- One `url_data` record: an HTTP response (status code and depth; the
content-type, byte length and timestamp fields carry no crawl logic and
are omitted) or a recorded fetch failure. -/
inductive VisitRecord where
  | success (status : Nat) (depth : Nat)
  | failure (err : ErrKind) (depth : Nat)
deriving DecidableEq

/-- The recorded depth of a `url_data` record. -/
def VisitRecord.depth : VisitRecord → Nat
  | .success _ d => d
  | .failure _ d => d

/-- What the HTTP transport returns for one URL: a response of any status
whose body is abstracted as the match lists the extraction regexes would
produce on it, or one of the transport failures.  The network is a pure
oracle `List Char → FetchOutcome` for the run. -/
inductive FetchOutcome where
  | response (status : Nat) (markup : List PatRun) (mining : List PatRun)
  | connError
  | timeout
  | otherError
deriving DecidableEq

/-- The mutable run state (`visited`, `discovered_urls`, `url_data`, and
the three `stats` counters).  `url_data` is kept as the chronological list
of assignments; since each key is assigned at most once (proved below), it
coincides with the Python dict. -/
structure CrawlState where
  visited : List (List Char)
  discovered : List (List Char)
  url_data : List (List Char × VisitRecord)
  stats_total : Nat
  stats_success : Nat
  stats_failed : Nat
deriving DecidableEq

/-- The method `AdvancedWebCrawler.fetch_url`: bump `total_requests`, perform the
request; on a response of any status bump `successful_requests`, record,
extract links (markup patterns then `find_potential_paths`, unioned); on a
failure bump `failed_requests`, record the error, and return an empty link
set with status 0. -/
def fetch_url (cfg : Config) (world : List Char → FetchOutcome)
    (url : List Char) (depth : Nat) (st : CrawlState) :
    CrawlState × List (List Char) × Nat :=
  let st := { st with stats_total := st.stats_total + 1 }
  match world url with
  | .response status markup mining =>
    let st := { st with
      stats_success := st.stats_success + 1,
      url_data := st.url_data ++ [(url, .success status depth)] }
    let links := (find_potential_paths_run cfg mining).foldl addSet
      (extract_links_run cfg url markup)
    (st, links, status)
  | .connError =>
    ({ st with
        stats_failed := st.stats_failed + 1,
        url_data := st.url_data ++ [(url, .failure .connRefused depth)] }, [], 0)
  | .timeout =>
    ({ st with
        stats_failed := st.stats_failed + 1,
        url_data := st.url_data ++ [(url, .failure .timeout depth)] }, [], 0)
  | .otherError =>
    ({ st with
        stats_failed := st.stats_failed + 1,
        url_data := st.url_data ++ [(url, .failure .otherError depth)] }, [], 0)

/-- The method `AdvancedWebCrawler._threaded_crawl`, embedded sequentially: one FIFO
entry at a time is claimed (`url not in visited and depth <= max_depth`,
then `visited.add`), fetched, its completion consumed (`discovered.add`,
the second `total_requests` bump), and — only for status exactly 200 and
`depth < max_depth` — its links not yet visited are appended at
`depth + 1`.  The thread pool only reorders completions; every claim
settled below is insensitive to that order.  `fuel` bounds the number of
processed entries. -/
def crawl_loop (cfg : Config) (world : List Char → FetchOutcome) :
    Nat → CrawlState → List (List Char × Nat) → CrawlState
  | 0, st, _ => st
  | _ + 1, st, [] => st
  | fuel + 1, st, (url, depth) :: rest =>
    if url ∉ st.visited ∧ depth ≤ cfg.max_depth then
      let st1 := { st with visited := addSet st.visited url }
      let r := fetch_url cfg world url depth st1
      let st2 := { r.1 with
        discovered := addSet r.1.discovered url,
        stats_total := r.1.stats_total + 1 }
      let q2 :=
        if r.2.2 = 200 ∧ depth < cfg.max_depth then
          rest ++ (r.2.1.filter (fun l => l ∉ st2.visited)).map (fun l => (l, depth + 1))
        else rest
      crawl_loop cfg world fuel st2 q2
    else crawl_loop cfg world fuel st rest

/-- The links the seed page yields (`extract_links` unioned with
`find_potential_paths`, lines 280–281 of `crawl`). -/
def seed_links (cfg : Config) (world : List Char → FetchOutcome) : List (List Char) :=
  match world cfg.base_url with
  | .response _ markup mining =>
    (find_potential_paths_run cfg mining).foldl addSet
      (extract_links_run cfg cfg.base_url markup)
  | _ => []

/-- The queue `crawl` builds before `_threaded_crawl` (lines 297–300): the
seed's links not yet visited (visited holds only the seed), at depth 1. -/
def initial_queue (cfg : Config) (world : List Char → FetchOutcome) :
    List (List Char × Nat) :=
  ((seed_links cfg world).filter (fun l => l ∉ [cfg.base_url])).map (fun l => (l, 1))

/-- A finished run: the final state and whether `display_results` was
reached (`crawl` returns early, skipping it, when the synchronous seed
request raises). -/
structure CrawlResult where
  state : CrawlState
  reported : Bool
deriving DecidableEq

/-- The method `AdvancedWebCrawler.crawl`: add the raw `base_url` to `visited`, fetch
it synchronously (a bare `requests.get`, touching no counter on failure);
on status 200 record it, bump `successful_requests`, build the initial
queue and run `_threaded_crawl`; on any other status record it and bump
`successful_requests` without crawling; on a raised `ConnectionError` (or
any other exception) return at once without reporting. -/
def crawl (cfg : Config) (world : List Char → FetchOutcome) (fuel : Nat) :
    CrawlResult :=
  let st0 : CrawlState := ⟨addSet [] cfg.base_url, [], [], 0, 0, 0⟩
  match world cfg.base_url with
  | .response status _ _ =>
    let st1 := { st0 with
      url_data := [(cfg.base_url, .success status 0)],
      discovered := addSet st0.discovered cfg.base_url,
      stats_success := st0.stats_success + 1 }
    if status = 200 then
      ⟨crawl_loop cfg world fuel st1 (initial_queue cfg world), true⟩
    else ⟨st1, true⟩
  | _ => ⟨st0, false⟩

/-! ## List helper lemmas -/

theorem takeWhile_eq_self {p : Char → Bool} {l : List Char}
    (h : ∀ x ∈ l, p x = true) : l.takeWhile p = l :=
  List.takeWhile_eq_self_iff.mpr h

theorem dropWhile_eq_nil {p : Char → Bool} {l : List Char}
    (h : ∀ x ∈ l, p x = true) : l.dropWhile p = [] :=
  List.dropWhile_eq_nil_iff.mpr h

theorem takeWhile_append_cons {p : Char → Bool} {a : List Char} {c : Char}
    (b : List Char) (ha : ∀ x ∈ a, p x = true) (hc : p c = false) :
    (a ++ c :: b).takeWhile p = a := by
  induction a with
  | nil => simp [List.takeWhile_cons, hc]
  | cons x t ih =>
    have hx : p x = true := ha x (by simp)
    simp [List.takeWhile_cons, hx, ih fun y hy => ha y (by simp [hy])]

theorem dropWhile_append_cons {p : Char → Bool} {a : List Char} {c : Char}
    (b : List Char) (ha : ∀ x ∈ a, p x = true) (hc : p c = false) :
    (a ++ c :: b).dropWhile p = c :: b := by
  induction a with
  | nil => simp [List.dropWhile_cons, hc]
  | cons x t ih =>
    have hx : p x = true := ha x (by simp)
    simp [List.dropWhile_cons, hx, ih fun y hy => ha y (by simp [hy])]

theorem mem_takeWhile {p : Char → Bool} {l : List Char} {c : Char}
    (h : c ∈ l.takeWhile p) : c ∈ l ∧ p c = true := by
  induction l with
  | nil => simp at h
  | cons a t ih =>
    by_cases hp : p a
    · rw [List.takeWhile_cons_of_pos hp] at h
      rcases List.mem_cons.mp h with h | h
      · exact ⟨by simp [h], h ▸ hp⟩
      · exact ⟨by simp [(ih h).1], (ih h).2⟩
    · rw [List.takeWhile_cons_of_neg hp] at h
      simp at h

theorem head?_dropWhile {p : Char → Bool} {l : List Char} {c : Char}
    (h : (l.dropWhile p).head? = some c) : p c = false := by
  induction l with
  | nil => simp at h
  | cons a t ih =>
    by_cases hp : p a
    · rw [List.dropWhile_cons_of_pos hp] at h
      exact ih h
    · rw [List.dropWhile_cons_of_neg hp] at h
      simp only [List.head?_cons, Option.some.injEq] at h
      exact h ▸ eq_false_of_ne_true hp

theorem mem_addSet {acc : List (List Char)} {x u : List Char}
    (h : u ∈ addSet acc x) : u ∈ acc ∨ u = x := by
  unfold addSet at h
  split at h
  · exact Or.inl h
  · rcases List.mem_append.mp h with h | h
    · exact Or.inl h
    · exact Or.inr (by simpa using h)

theorem mem_addSet_left {acc : List (List Char)} {x u : List Char}
    (h : u ∈ acc) : u ∈ addSet acc x := by
  unfold addSet
  split
  · exact h
  · exact List.mem_append.mpr (Or.inl h)

theorem self_mem_addSet (acc : List (List Char)) (x : List Char) :
    x ∈ addSet acc x := by
  unfold addSet
  split
  · assumption
  · simp

theorem mem_foldl_addSet {l acc : List (List Char)} {u : List Char}
    (h : u ∈ l.foldl addSet acc) : u ∈ acc ∨ u ∈ l := by
  induction l generalizing acc with
  | nil => exact Or.inl h
  | cons a t ih =>
    rcases ih h with h1 | h1
    · rcases mem_addSet h1 with h2 | h2
      · exact Or.inl h2
      · exact Or.inr (by simp [h2])
    · exact Or.inr (by simp [h1])

/-! ## Character-class lemmas -/

/-- Case analysis for `lowerChar`: it either leaves its argument alone or yields one of the 26
lower-case letters, each of which is a lower-case scheme character fixed
by `lowerChar`. -/
theorem lowerChar_master (c : Char) :
    lowerChar c = c ∨
      ∃ d, lowerChar c = d ∧ d.isLower = true ∧ isSchemeChar d = true ∧
        lowerChar d = d := by
  by_cases h1 : c = 'A'
  · subst h1
    exact Or.inr ⟨'a', by decide, by decide, by decide, by decide⟩
  by_cases h2 : c = 'B'
  · subst h2
    exact Or.inr ⟨'b', by decide, by decide, by decide, by decide⟩
  by_cases h3 : c = 'C'
  · subst h3
    exact Or.inr ⟨'c', by decide, by decide, by decide, by decide⟩
  by_cases h4 : c = 'D'
  · subst h4
    exact Or.inr ⟨'d', by decide, by decide, by decide, by decide⟩
  by_cases h5 : c = 'E'
  · subst h5
    exact Or.inr ⟨'e', by decide, by decide, by decide, by decide⟩
  by_cases h6 : c = 'F'
  · subst h6
    exact Or.inr ⟨'f', by decide, by decide, by decide, by decide⟩
  by_cases h7 : c = 'G'
  · subst h7
    exact Or.inr ⟨'g', by decide, by decide, by decide, by decide⟩
  by_cases h8 : c = 'H'
  · subst h8
    exact Or.inr ⟨'h', by decide, by decide, by decide, by decide⟩
  by_cases h9 : c = 'I'
  · subst h9
    exact Or.inr ⟨'i', by decide, by decide, by decide, by decide⟩
  by_cases h10 : c = 'J'
  · subst h10
    exact Or.inr ⟨'j', by decide, by decide, by decide, by decide⟩
  by_cases h11 : c = 'K'
  · subst h11
    exact Or.inr ⟨'k', by decide, by decide, by decide, by decide⟩
  by_cases h12 : c = 'L'
  · subst h12
    exact Or.inr ⟨'l', by decide, by decide, by decide, by decide⟩
  by_cases h13 : c = 'M'
  · subst h13
    exact Or.inr ⟨'m', by decide, by decide, by decide, by decide⟩
  by_cases h14 : c = 'N'
  · subst h14
    exact Or.inr ⟨'n', by decide, by decide, by decide, by decide⟩
  by_cases h15 : c = 'O'
  · subst h15
    exact Or.inr ⟨'o', by decide, by decide, by decide, by decide⟩
  by_cases h16 : c = 'P'
  · subst h16
    exact Or.inr ⟨'p', by decide, by decide, by decide, by decide⟩
  by_cases h17 : c = 'Q'
  · subst h17
    exact Or.inr ⟨'q', by decide, by decide, by decide, by decide⟩
  by_cases h18 : c = 'R'
  · subst h18
    exact Or.inr ⟨'r', by decide, by decide, by decide, by decide⟩
  by_cases h19 : c = 'S'
  · subst h19
    exact Or.inr ⟨'s', by decide, by decide, by decide, by decide⟩
  by_cases h20 : c = 'T'
  · subst h20
    exact Or.inr ⟨'t', by decide, by decide, by decide, by decide⟩
  by_cases h21 : c = 'U'
  · subst h21
    exact Or.inr ⟨'u', by decide, by decide, by decide, by decide⟩
  by_cases h22 : c = 'V'
  · subst h22
    exact Or.inr ⟨'v', by decide, by decide, by decide, by decide⟩
  by_cases h23 : c = 'W'
  · subst h23
    exact Or.inr ⟨'w', by decide, by decide, by decide, by decide⟩
  by_cases h24 : c = 'X'
  · subst h24
    exact Or.inr ⟨'x', by decide, by decide, by decide, by decide⟩
  by_cases h25 : c = 'Y'
  · subst h25
    exact Or.inr ⟨'y', by decide, by decide, by decide, by decide⟩
  by_cases h26 : c = 'Z'
  · subst h26
    exact Or.inr ⟨'z', by decide, by decide, by decide, by decide⟩
  left
  unfold lowerChar
  rw [if_neg h1, if_neg h2, if_neg h3, if_neg h4, if_neg h5, if_neg h6, if_neg h7, if_neg h8, if_neg h9, if_neg h10, if_neg h11, if_neg h12, if_neg h13, if_neg h14, if_neg h15, if_neg h16, if_neg h17, if_neg h18, if_neg h19, if_neg h20, if_neg h21, if_neg h22, if_neg h23, if_neg h24, if_neg h25, if_neg h26]

theorem lowerChar_lowerChar (c : Char) :
    lowerChar (lowerChar c) = lowerChar c := by
  rcases lowerChar_master c with h | ⟨d, hd, _, _, hdd⟩
  · rw [h]; exact h
  · rw [hd]; exact hdd

theorem lowerChar_isAlpha {c : Char} (h : c.isAlpha = true) :
    (lowerChar c).isAlpha = true := by
  rcases lowerChar_master c with hl | ⟨d, hd, hlow, _, _⟩
  · rw [hl]; exact h
  · rw [hd]
    simp [Char.isAlpha, hlow]

theorem lowerChar_isSchemeChar {c : Char} (h : isSchemeChar c = true) :
    isSchemeChar (lowerChar c) = true := by
  rcases lowerChar_master c with hl | ⟨d, hd, _, hsch, _⟩
  · rw [hl]; exact h
  · rw [hd]; exact hsch

theorem isLower_ne_colon {c : Char} (h : c.isLower = true) : c ≠ ':' := by
  intro he
  subst he
  simp at h

theorem lowerChar_ne_colon {c : Char} (h : c ≠ ':') : lowerChar c ≠ ':' := by
  rcases lowerChar_master c with hl | ⟨d, hd, hlow, _, _⟩
  · rw [hl]; exact h
  · rw [hd]; exact isLower_ne_colon hlow

theorem lowerStr_lowerStr (s : List Char) : lowerStr (lowerStr s) = lowerStr s := by
  unfold lowerStr
  rw [List.map_map]
  exact List.map_congr_left fun c _ => lowerChar_lowerChar c

theorem isAlpha_ne_colon {c : Char} (h : c.isAlpha = true) : c ≠ ':' := by
  intro he
  subst he
  simp at h

theorem isSchemeChar_ne_colon {c : Char} (h : isSchemeChar c = true) : c ≠ ':' := by
  intro he
  subst he
  simp [isSchemeChar] at h

/-! ## Scheme well-formedness -/

/-- A string `urlsplit` accepts as a scheme: nonempty, a letter first,
scheme characters after. -/
def schemeOk : List Char → Bool
  | [] => false
  | c :: cs => c.isAlpha && cs.all isSchemeChar

theorem schemeOk_ne_nil {s : List Char} (h : schemeOk s = true) : s ≠ [] := by
  intro he
  subst he
  simp [schemeOk] at h

theorem schemeOk_mem_ne_colon {s : List Char} (h : schemeOk s = true) :
    ∀ x ∈ s, x ≠ ':' := by
  match s with
  | [] => simp [schemeOk] at h
  | c :: cs =>
    simp only [schemeOk, Bool.and_eq_true, List.all_eq_true] at h
    intro x hx
    rcases List.mem_cons.mp hx with rfl | hx
    · exact isAlpha_ne_colon h.1
    · exact isSchemeChar_ne_colon (h.2 x hx)

theorem schemeOk_lowerStr {s : List Char} (h : schemeOk s = true) :
    schemeOk (lowerStr s) = true := by
  match s with
  | [] => simp [schemeOk] at h
  | c :: cs =>
    simp only [schemeOk, Bool.and_eq_true, List.all_eq_true] at h
    simp only [lowerStr, List.map_cons, schemeOk, Bool.and_eq_true,
      List.all_eq_true, List.mem_map]
    exact ⟨lowerChar_isAlpha h.1,
      fun x hx => by
        obtain ⟨y, hy, rfl⟩ := hx
        exact lowerChar_isSchemeChar (h.2 y hy)⟩

/-- The scheme-detection step succeeds exactly as CPython's does on a
well-formed `scheme:rest` string. -/
theorem schemeSplit_append (r : List Char) {s : List Char} (hs : schemeOk s = true) :
    schemeSplit (s ++ ':' :: r) = some (lowerStr s, r) := by
  have hall : ∀ x ∈ s, (fun c => decide (c ≠ ':')) x = true := by
    intro x hx
    simpa using schemeOk_mem_ne_colon hs x hx
  have hcolon : (fun c => decide (c ≠ ':')) ':' = false := by simp
  match hsv : s, hs with
  | c :: cs, hs =>
    unfold schemeSplit
    rw [dropWhile_append_cons r (by simpa [hsv] using hall) hcolon,
      takeWhile_append_cons r (by simpa [hsv] using hall) hcolon]
    have h2 : c.isAlpha ∧ cs.all isSchemeChar := by
      simpa [schemeOk, Bool.and_eq_true, List.all_eq_true] using hs
    simp [h2]

/-! ## splitOnce / splitLastChar / splitparams -/

theorem splitOnce_absent {a : Char} {l : List Char} (h : a ∉ l) :
    splitOnce a l = (l, []) := by
  unfold splitOnce
  have hall : ∀ x ∈ l, (fun c => decide (c ≠ a)) x = true := by
    intro x hx
    simp only [decide_eq_true_eq]
    intro he
    exact h (he ▸ hx)
  rw [takeWhile_eq_self hall, dropWhile_eq_nil hall]
  rfl

theorem splitOnce_append {a : Char} {x y : List Char} (hx : a ∉ x) :
    splitOnce a (x ++ a :: y) = (x, y) := by
  unfold splitOnce
  have hall : ∀ c ∈ x, (fun c => decide (c ≠ a)) c = true := by
    intro c hc
    simp only [decide_eq_true_eq]
    intro he
    exact hx (he ▸ hc)
  rw [takeWhile_append_cons y hall (by simp), dropWhile_append_cons y hall (by simp)]
  rfl

theorem mem_splitOnce_fst {a : Char} {l : List Char} {c : Char}
    (h : c ∈ (splitOnce a l).1) : c ∈ l ∧ c ≠ a := by
  unfold splitOnce at h
  have := mem_takeWhile h
  exact ⟨this.1, by simpa using this.2⟩

theorem mem_splitOnce_snd {a : Char} {l : List Char} {c : Char}
    (h : c ∈ (splitOnce a l).2) : c ∈ l := by
  unfold splitOnce at h
  have h1 : c ∈ l.dropWhile (fun c => decide (c ≠ a)) :=
    List.mem_of_mem_drop h
  exact (List.dropWhile_sublist _).mem h1

theorem splitLastChar_eq {a : Char} {l x y : List Char}
    (h : splitLastChar a l = some (x, y)) : l = x ++ a :: y := by
  unfold splitLastChar at h
  set q : Char → Bool := fun c => decide (c ≠ a) with hq
  cases hd : l.reverse.dropWhile q with
  | nil => rw [hd] at h; simp at h
  | cons d ra =>
    rw [hd] at h
    simp only [Option.some.injEq, Prod.mk.injEq] at h
    have hda : d = a := by
      have := head?_dropWhile
        (show (l.reverse.dropWhile q).head? = some d from by rw [hd]; rfl)
      simpa [hq] using this
    have hsplit : l.reverse = l.reverse.takeWhile q ++ d :: ra := by
      rw [← hd, List.takeWhile_append_dropWhile]
    have : l = ra.reverse ++ d :: (l.reverse.takeWhile q).reverse := by
      have := congrArg List.reverse hsplit
      simpa [List.reverse_append] using this
    rw [← h.1, ← h.2, ← hda]
    exact this

theorem splitparams_absent {p : List Char} (h : ';' ∉ p) :
    splitparams p = (p, []) := by
  unfold splitparams
  rw [if_neg h]

theorem mem_splitparams_fst {p : List Char} {c : Char}
    (h : c ∈ (splitparams p).1) : c ∈ p := by
  unfold splitparams at h
  split at h
  · split at h
    · cases hsl2 : splitLastChar '/' p with
      | none => rw [hsl2] at h; exact h
      | some ab =>
        obtain ⟨a, b⟩ := ab
        have hp : p = a ++ '/' :: b := splitLastChar_eq hsl2
        simp only [hsl2] at h
        split at h
        · rcases List.mem_append.mp h with h1 | h1
          · rw [hp]; exact List.mem_append.mpr (Or.inl h1)
          · rcases List.mem_cons.mp h1 with rfl | h1
            · rw [hp]; simp
            · rw [hp]
              have := (mem_takeWhile h1).1
              simp [this]
        · exact h
    · have := (mem_takeWhile h).1
      exact this
  · exact h

theorem mem_splitparams_snd {p : List Char} {c : Char}
    (h : c ∈ (splitparams p).2) : c ∈ p := by
  unfold splitparams at h
  split at h
  · split at h
    · cases hsl2 : splitLastChar '/' p with
      | none => rw [hsl2] at h; simp at h
      | some ab =>
        obtain ⟨a, b⟩ := ab
        have hp : p = a ++ '/' :: b := splitLastChar_eq hsl2
        simp only [hsl2] at h
        split at h
        · have h1 : c ∈ b.dropWhile (fun c => decide (c ≠ ';')) :=
            List.mem_of_mem_drop h
          have h2 : c ∈ b := (List.dropWhile_sublist _).mem h1
          rw [hp]; simp [h2]
        · simp at h
    · have h1 : c ∈ p.dropWhile (fun c => decide (c ≠ ';')) :=
        List.mem_of_mem_drop h
      exact (List.dropWhile_sublist _).mem h1
  · simp at h

/-! ## Round-tripping `urlunparse` through `urlparse` -/

/-- The query/fragment tail `urlunsplit` appends. -/
def qfTail (q f : List Char) : List Char :=
  (if q ≠ [] then '?' :: q else []) ++ (if f ≠ [] then '#' :: f else [])

theorem slashAdj_head {u0 : List Char} (h : u0 ≠ []) :
    (slashAdj u0).head? = some '/' := by
  unfold slashAdj
  split
  · rfl
  · rename_i hcond
    rcases not_and_or.mp hcond with hc | hc
    · exact absurd h (by simpa using hc)
    · simpa using hc

theorem slashAdj_cases (u0 : List Char) :
    slashAdj u0 = u0 ∨ slashAdj u0 = '/' :: u0 := by
  unfold slashAdj
  split
  · exact Or.inr rfl
  · exact Or.inl rfl

theorem mem_slashAdj {u0 : List Char} {c : Char} (h : c ∈ slashAdj u0) :
    c ∈ u0 ∨ c = '/' := by
  rcases slashAdj_cases u0 with he | he <;> rw [he] at h
  · exact Or.inl h
  · rcases List.mem_cons.mp h with rfl | h
    · exact Or.inr rfl
    · exact Or.inl h

theorem urlunparse_shape (r : UrlParts) (hn : r.netloc ≠ [])
    (hs : r.scheme ≠ []) :
    urlunparse r =
      r.scheme ++ ':' :: '/' :: '/' ::
        (r.netloc ++
          (slashAdj (if r.params ≠ [] then r.path ++ ';' :: r.params else r.path) ++
            qfTail r.query r.fragment)) := by
  simp only [urlunparse, urlunsplit, qfTail]
  rw [if_pos (Or.inl hn), if_pos hs]
  by_cases hq : r.query = [] <;> by_cases hf : r.fragment = [] <;>
    simp [hq, hf, List.append_assoc]

/-- The head of `slashAdj u0 ++ qfTail q f` (when nonempty) stops the
netloc scan. -/
theorem rest2_ok (u0 q f : List Char) :
    slashAdj u0 ++ qfTail q f = [] ∨
      ∃ c r, slashAdj u0 ++ qfTail q f = c :: r ∧ badNetChar c = true := by
  by_cases h0 : u0 = []
  · subst h0
    have hsa : slashAdj [] = [] := by rfl
    rw [hsa]
    by_cases hq : q = []
    · by_cases hf : f = []
      · left; simp [qfTail, hq, hf]
      · right; exact ⟨'#', f, by simp [qfTail, hq, hf], by decide⟩
    · right
      refine ⟨'?', q ++ (if f ≠ [] then '#' :: f else []), ?_, by decide⟩
      simp [qfTail, hq]
  · right
    have hhd := slashAdj_head h0
    cases hsa : slashAdj u0 with
    | nil => rw [hsa] at hhd; simp at hhd
    | cons c t =>
      rw [hsa] at hhd
      simp only [List.head?_cons, Option.some.injEq] at hhd
      exact ⟨'/', t ++ qfTail q f, by rw [← hhd]; simp, by decide⟩

set_option maxHeartbeats 800000 in
/-- CPython `urlsplit` on a canonical `scheme://netloc...` string: the
scheme is recovered (lower-cased), the netloc is exactly `n`, and the
fragment/query splits run on the remainder. -/
theorem urlsplit_canonical {s n rest2 : List Char}
    (hs : schemeOk s = true) (hnb : ∀ c ∈ n, badNetChar c = false)
    (hr : rest2 = [] ∨ ∃ c r, rest2 = c :: r ∧ badNetChar c = true) :
    urlsplit [] (s ++ ':' :: '/' :: '/' :: (n ++ rest2)) =
      (lowerStr s, n, (splitOnce '?' (splitOnce '#' rest2).1).1,
       (splitOnce '?' (splitOnce '#' rest2).1).2, (splitOnce '#' rest2).2) := by
  have h1 : schemeSplit (s ++ ':' :: '/' :: '/' :: (n ++ rest2)) =
      some (lowerStr s, '/' :: '/' :: (n ++ rest2)) :=
    schemeSplit_append ('/' :: '/' :: (n ++ rest2)) hs
  have hall : ∀ x ∈ n, (fun c => decide (¬ badNetChar c = true)) x = true := by
    intro x hx
    simp [hnb x hx]
  have htake : ((n ++ rest2).takeWhile (fun c => ¬ badNetChar c)) = n := by
    rcases hr with rfl | ⟨c, r, rfl, hc⟩
    · rw [List.append_nil]
      exact takeWhile_eq_self hall
    · exact takeWhile_append_cons r hall (by simp [hc])
  have hdrop : ((n ++ rest2).dropWhile (fun c => ¬ badNetChar c)) = rest2 := by
    rcases hr with rfl | ⟨c, r, rfl, hc⟩
    · rw [List.append_nil]
      exact dropWhile_eq_nil hall
    · exact dropWhile_append_cons r hall (by simp [hc])
  have hcond : List.take 2 ('/' :: '/' :: (n ++ rest2)) = ['/', '/'] := rfl
  have hdrop2 : List.drop 2 ('/' :: '/' :: (n ++ rest2)) = n ++ rest2 := rfl
  simp only [urlsplit, schemeStep, netlocStep, h1]
  rw [hcond, if_pos rfl, hdrop2, htake, hdrop]

set_option maxHeartbeats 800000 in
/-- The parser recovers the components `urlunparse` was given, on the
canonical forms `normalize_url` produces: a valid lower-case scheme, a
nonempty netloc free of `/?#`, no params, a path free of `#?;`, a query
free of `#` — the path alone gains the leading slash `urlunsplit` adds. -/
theorem urlparse_urlunparse (s n p q f : List Char)
    (hs : schemeOk s = true) (hlow : lowerStr s = s)
    (hn : n ≠ []) (hnb : ∀ c ∈ n, badNetChar c = false)
    (hpf : '#' ∉ p) (hpq : '?' ∉ p) (hps : ';' ∉ p)
    (hqf : '#' ∉ q) :
    urlparse (urlunparse ⟨s, n, p, [], q, f⟩) = ⟨s, n, slashAdj p, [], q, f⟩ := by
  have hshape := urlunparse_shape ⟨s, n, p, [], q, f⟩ hn (schemeOk_ne_nil hs)
  simp only at hshape
  rw [if_neg (by simp)] at hshape
  have hpf2 : '#' ∉ slashAdj p := fun h => by
    rcases mem_slashAdj h with h | h
    · exact hpf h
    · simp at h
  have hpq2 : '?' ∉ slashAdj p := fun h => by
    rcases mem_slashAdj h with h | h
    · exact hpq h
    · simp at h
  have hps2 : ';' ∉ slashAdj p := fun h => by
    rcases mem_slashAdj h with h | h
    · exact hps h
    · simp at h
  have hfrag : splitOnce '#' (slashAdj p ++ qfTail q f) =
      (slashAdj p ++ (if q ≠ [] then '?' :: q else []), f) ∨
      (f = [] ∧ splitOnce '#' (slashAdj p ++ qfTail q f) =
        (slashAdj p ++ (if q ≠ [] then '?' :: q else []), [])) := by
    by_cases hf : f = []
    · right
      refine ⟨hf, ?_⟩
      have habs : '#' ∉ slashAdj p ++ qfTail q f := by
        intro hmem
        rcases List.mem_append.mp hmem with h | h
        · exact hpf2 h
        · unfold qfTail at h
          rcases List.mem_append.mp h with h | h
          · split at h
            · rcases List.mem_cons.mp h with h | h
              · exact absurd h.symm (by decide)
              · exact hqf h
            · simp at h
          · rw [if_neg (show ¬ f ≠ [] by simp [hf])] at h
            simp at h
      rw [splitOnce_absent habs]
      unfold qfTail
      rw [if_neg (show ¬ f ≠ [] by simp [hf]), List.append_nil]
    · left
      have hsplit : slashAdj p ++ qfTail q f =
          (slashAdj p ++ (if q ≠ [] then '?' :: q else [])) ++ '#' :: f := by
        unfold qfTail
        rw [if_pos (show f ≠ [] from hf)]
        simp [List.append_assoc]
      rw [hsplit]
      apply splitOnce_append
      intro hmem
      rcases List.mem_append.mp hmem with h | h
      · exact hpf2 h
      · split at h
        · rcases List.mem_cons.mp h with h | h
          · exact absurd h.symm (by decide)
          · exact hqf h
        · simp at h
  have hquery : splitOnce '?' (slashAdj p ++ (if q ≠ [] then '?' :: q else [])) =
      (slashAdj p, q) := by
    by_cases hq : q = []
    · rw [if_neg (show ¬ q ≠ [] by simp [hq]), List.append_nil,
        splitOnce_absent hpq2, hq]
    · rw [if_pos (show q ≠ [] from hq)]
      exact splitOnce_append hpq2
  rw [hshape]
  unfold urlparse urlparseWith
  rw [urlsplit_canonical hs hnb (rest2_ok p q f)]
  rcases hfrag with hfrag | ⟨hf0, hfrag⟩
  · rw [hfrag]
    simp only [hquery, splitparams_absent hps2, hlow]
  · rw [hfrag]
    simp only [hquery, splitparams_absent hps2, hlow]
    rw [hf0]

set_option maxHeartbeats 800000 in
/-- The netloc of a reparsed `urlunparse` output is exactly the netloc it
was given, for any path/params/query/fragment (they sit behind the `//`
section). -/
theorem urlparse_urlunparse_netloc (r : UrlParts)
    (hs : schemeOk r.scheme = true) (hn : r.netloc ≠ [])
    (hnb : ∀ c ∈ r.netloc, badNetChar c = false) :
    (urlparse (urlunparse r)).netloc = r.netloc := by
  rw [urlunparse_shape r hn (schemeOk_ne_nil hs)]
  unfold urlparse urlparseWith
  rw [urlsplit_canonical hs hnb (rest2_ok _ _ _)]

/-! ## Well-formedness of parse components -/

theorem schemeSplit_inv {u s r : List Char} (h : schemeSplit u = some (s, r)) :
    schemeOk s = true ∧ lowerStr s = s := by
  unfold schemeSplit at h
  split at h
  · exact absurd h (by simp)
  · split at h
    · exact absurd h (by simp)
    · rename_i c cs _
      split at h
      · rename_i hcond
        simp only [Option.some.injEq, Prod.mk.injEq] at h
        obtain ⟨rfl, -⟩ := h
        constructor
        · simp only [lowerStr, List.map_cons, schemeOk, Bool.and_eq_true,
            List.all_eq_true]
          refine ⟨lowerChar_isAlpha hcond.1, ?_⟩
          intro x hx
          simp only [List.mem_map] at hx
          obtain ⟨y, hy, rfl⟩ := hx
          have hall := hcond.2
          simp only [List.all_eq_true] at hall
          exact lowerChar_isSchemeChar (hall y hy)
        · exact lowerStr_lowerStr (c :: cs)
      · exact absurd h (by simp)

theorem urlparse_scheme_props (u : List Char) :
    (urlparse u).scheme = [] ∨
      (schemeOk (urlparse u).scheme = true ∧
        lowerStr (urlparse u).scheme = (urlparse u).scheme) := by
  have : (urlparse u).scheme = (schemeStep [] u).1 := rfl
  rw [this]
  unfold schemeStep
  cases hss : schemeSplit u with
  | none => left; rfl
  | some sr =>
    right
    obtain ⟨s, r⟩ := sr
    exact schemeSplit_inv hss

theorem urlparse_netloc_props (u : List Char) :
    ∀ c ∈ (urlparse u).netloc, badNetChar c = false := by
  intro c hc
  have : (urlparse u).netloc = (netlocStep (schemeStep [] u).2).1 := rfl
  rw [this] at hc
  unfold netlocStep at hc
  split at hc
  · have := (mem_takeWhile hc).2
    simpa using this
  · simp at hc

theorem urlparse_path_props (u : List Char) :
    '#' ∉ (urlparse u).path ∧ '?' ∉ (urlparse u).path ∧
      '#' ∉ (urlparse u).query := by
  have hpath : (urlparse u).path =
      (splitparams (splitOnce '?' (splitOnce '#'
        (netlocStep (schemeStep [] u).2).2).1).1).1 := rfl
  have hquery : (urlparse u).query =
      (splitOnce '?' (splitOnce '#' (netlocStep (schemeStep [] u).2).2).1).2 := rfl
  refine ⟨?_, ?_, ?_⟩
  · rw [hpath]
    intro h
    have h1 := mem_splitparams_fst h
    have h2 := mem_splitOnce_fst h1
    have h3 := mem_splitOnce_fst h2.1
    exact h3.2 rfl
  · rw [hpath]
    intro h
    have h1 := mem_splitparams_fst h
    have h2 := mem_splitOnce_fst h1
    exact h2.2 rfl
  · rw [hquery]
    intro h
    have h1 := mem_splitOnce_snd h
    have h2 := mem_splitOnce_fst h1
    exact h2.2 rfl

/-! ## What `normalize_url` builds -/

theorem normalize_url_eq (cfg : Config) (u : List Char) :
    normalize_url cfg u =
      urlunparse
        ⟨(if (urlparse u).scheme = [] then cfg.scheme else (urlparse u).scheme),
         (if (urlparse u).netloc = [] then cfg.base_domain else (urlparse u).netloc),
         fixPath (urlparse u).path, (urlparse u).params, (urlparse u).query,
         (urlparse u).fragment⟩ := by
  unfold normalize_url
  by_cases h1 : (urlparse u).scheme = [] <;>
    by_cases h2 : (urlparse u).netloc = [] <;>
    simp [h1, h2]

/-- The configuration facts every origin/idempotence argument needs: a
valid lower-case scheme and a nonempty origin host free of `/?#`. -/
@[reducible] def ConfigOk (cfg : Config) : Prop :=
  schemeOk cfg.scheme = true ∧ lowerStr cfg.scheme = cfg.scheme ∧
    cfg.base_domain ≠ [] ∧ ∀ c ∈ cfg.base_domain, badNetChar c = false

theorem mkConfig_scheme (raw : List Char) (d : Nat) :
    (mkConfig raw d).scheme =
      (if (urlparse raw).scheme = [] then "http".toList
       else (urlparse raw).scheme) := rfl

theorem mkConfig_ok (raw : List Char) (d : Nat)
    (hd : (mkConfig raw d).base_domain ≠ []) : ConfigOk (mkConfig raw d) := by
  refine ⟨?_, ?_, hd, ?_⟩
  · rw [mkConfig_scheme]
    split
    · decide
    · rename_i hne
      rcases urlparse_scheme_props raw with he | ⟨hok, _⟩
      · exact absurd he hne
      · exact hok
  · rw [mkConfig_scheme]
    split
    · decide
    · rename_i hne
      rcases urlparse_scheme_props raw with he | ⟨_, hlow⟩
      · exact absurd he hne
      · exact hlow
  · show ∀ c ∈ (mkConfig raw d).base_domain, badNetChar c = false
    exact urlparse_netloc_props raw

theorem normalize_scheme_ok (cfg : Config) (u : List Char) (hcfg : ConfigOk cfg) :
    schemeOk (if (urlparse u).scheme = [] then cfg.scheme else (urlparse u).scheme)
      = true := by
  split
  · exact hcfg.1
  · rename_i hne
    rcases urlparse_scheme_props u with he | ⟨hok, _⟩
    · exact absurd he hne
    · exact hok

theorem normalize_netloc_ne (cfg : Config) (u : List Char) (hcfg : ConfigOk cfg) :
    (if (urlparse u).netloc = [] then cfg.base_domain else (urlparse u).netloc)
      ≠ [] := by
  split
  · exact hcfg.2.2.1
  · rename_i hne
    exact hne

theorem normalize_netloc_chars (cfg : Config) (u : List Char) (hcfg : ConfigOk cfg) :
    ∀ c ∈ (if (urlparse u).netloc = [] then cfg.base_domain
      else (urlparse u).netloc), badNetChar c = false := by
  split
  · exact hcfg.2.2.2
  · exact urlparse_netloc_props u

/-- Reparsing a normalized URL recovers exactly the substituted netloc. -/
theorem normalize_url_netloc (cfg : Config) (u : List Char) (hcfg : ConfigOk cfg) :
    (urlparse (normalize_url cfg u)).netloc =
      (if (urlparse u).netloc = [] then cfg.base_domain
       else (urlparse u).netloc) := by
  rw [normalize_url_eq]
  exact urlparse_urlunparse_netloc _
    (normalize_scheme_ok cfg u hcfg)
    (normalize_netloc_ne cfg u hcfg)
    (normalize_netloc_chars cfg u hcfg)

/-- A normalized URL that passes `is_valid_link` parses back to the
crawl's origin host. -/
theorem valid_normalize_netloc (cfg : Config) (u : List Char) (hcfg : ConfigOk cfg)
    (hv : is_valid_link cfg (normalize_url cfg u) = true) :
    (urlparse (normalize_url cfg u)).netloc = cfg.base_domain := by
  have hnl := normalize_url_netloc cfg u hcfg
  have hne : (urlparse (normalize_url cfg u)).netloc ≠ [] := by
    rw [hnl]
    exact normalize_netloc_ne cfg u hcfg
  simp only [is_valid_link] at hv
  split at hv
  · exact absurd hv (by simp)
  · rename_i hcond
    rcases not_and_or.mp hcond with hc | hc
    · exact absurd hne (by simpa using hc)
    · simpa using hc

/-! ## Path normalization facts -/

theorem fixPath_def {p : List Char} (h0 : p ≠ []) :
    fixPath p = if p ≠ ['/'] ∧ p.getLast? = some '/' then rstripSlash p else p := by
  simp only [fixPath, if_neg h0]

theorem mem_rstripSlash {l : List Char} {c : Char} (h : c ∈ rstripSlash l) :
    c ∈ l := by
  unfold rstripSlash at h
  rw [List.mem_reverse] at h
  have h2 : c ∈ l.reverse := (List.dropWhile_sublist _).mem h
  exact List.mem_reverse.mp h2

theorem rstripSlash_getLast (l : List Char) :
    (rstripSlash l).getLast? ≠ some '/' := by
  unfold rstripSlash
  intro h
  rw [List.getLast?_reverse] at h
  have := head?_dropWhile h
  simp at this

theorem mem_fixPath {p : List Char} {c : Char} (h : c ∈ fixPath p) :
    c ∈ p ∨ c = '/' := by
  by_cases h0 : p = []
  · subst h0
    right
    have : fixPath [] = ['/'] := rfl
    rw [this] at h
    simpa using h
  · rw [fixPath_def h0] at h
    split at h
    · exact Or.inl (mem_rstripSlash h)
    · exact Or.inl h

theorem fixPath_last (p : List Char) :
    fixPath p = ['/'] ∨ (fixPath p).getLast? ≠ some '/' := by
  by_cases h0 : p = []
  · subst h0
    left
    rfl
  · rw [fixPath_def h0]
    split
    · exact Or.inr (rstripSlash_getLast p)
    · rename_i hcond
      rcases not_and_or.mp hcond with hc | hc
      · left
        simpa using hc
      · right
        exact hc

theorem slashAdj_ne_nil {p : List Char} (h : p ≠ []) : slashAdj p ≠ [] := by
  rcases slashAdj_cases p with he | he <;> rw [he] <;> simp [h]

theorem slashAdj_slashAdj (p : List Char) : slashAdj (slashAdj p) = slashAdj p := by
  by_cases h0 : p = []
  · subst h0
    rfl
  · have := slashAdj_head h0
    unfold slashAdj
    rw [if_neg]
    intro hcc
    exact hcc.2 (by simpa [slashAdj] using this)

theorem getLast?_cons_of_ne_nil {a : Char} {l : List Char} (h : l ≠ []) :
    (a :: l).getLast? = l.getLast? := by
  cases l with
  | nil => exact absurd rfl h
  | cons b t => rfl

theorem fixPath_slashAdj (p0 : List Char) (hne : fixPath p0 ≠ []) :
    fixPath (slashAdj (fixPath p0)) = slashAdj (fixPath p0) := by
  rcases fixPath_last p0 with h | h
  · rw [h]
    decide
  · have hsa_ne : slashAdj (fixPath p0) ≠ [] := slashAdj_ne_nil hne
    have hlast : (slashAdj (fixPath p0)).getLast? ≠ some '/' := by
      rcases slashAdj_cases (fixPath p0) with he | he
      · rw [he]
        exact h
      · rw [he, getLast?_cons_of_ne_nil hne]
        exact h
    rw [fixPath_def hsa_ne, if_neg]
    intro hcc
    exact hlast hcc.2

theorem urlunparse_slashAdj (s n p q f : List Char) (hn : n ≠ []) (hs : s ≠ []) :
    urlunparse ⟨s, n, slashAdj p, [], q, f⟩ = urlunparse ⟨s, n, p, [], q, f⟩ := by
  rw [urlunparse_shape ⟨s, n, slashAdj p, [], q, f⟩ hn hs,
    urlunparse_shape ⟨s, n, p, [], q, f⟩ hn hs]
  simp [slashAdj_slashAdj]

/-- Idempotence of `normalize_url` on any URL whose path section carries no
`;` parameters and does not strip to nothing (i.e. is not a run of two or
more slashes), for a well-formed configuration. -/
theorem normalize_url_idem (cfg : Config) (u : List Char) (hcfg : ConfigOk cfg)
    (hparams : (urlparse u).params = []) (hsemi : ';' ∉ (urlparse u).path)
    (hfix : fixPath (urlparse u).path ≠ []) :
    normalize_url cfg (normalize_url cfg u) = normalize_url cfg u := by
  have hSok : schemeOk (if (urlparse u).scheme = [] then cfg.scheme
      else (urlparse u).scheme) = true := normalize_scheme_ok cfg u hcfg
  have hSlow : lowerStr (if (urlparse u).scheme = [] then cfg.scheme
      else (urlparse u).scheme) =
      (if (urlparse u).scheme = [] then cfg.scheme else (urlparse u).scheme) := by
    split
    · exact hcfg.2.1
    · rename_i hne
      rcases urlparse_scheme_props u with he | ⟨_, hlow⟩
      · exact absurd he hne
      · exact hlow
  have hNne := normalize_netloc_ne cfg u hcfg
  have hNchars := normalize_netloc_chars cfg u hcfg
  have hpath := urlparse_path_props u
  have hfx_f : '#' ∉ fixPath (urlparse u).path := by
    intro h
    rcases mem_fixPath h with h | h
    · exact hpath.1 h
    · exact absurd h (by decide)
  have hfx_q : '?' ∉ fixPath (urlparse u).path := by
    intro h
    rcases mem_fixPath h with h | h
    · exact hpath.2.1 h
    · exact absurd h (by decide)
  have hfx_s : ';' ∉ fixPath (urlparse u).path := by
    intro h
    rcases mem_fixPath h with h | h
    · exact hsemi h
    · exact absurd h (by decide)
  have h1 : normalize_url cfg u =
      urlunparse
        ⟨(if (urlparse u).scheme = [] then cfg.scheme else (urlparse u).scheme),
         (if (urlparse u).netloc = [] then cfg.base_domain else (urlparse u).netloc),
         fixPath (urlparse u).path, [], (urlparse u).query,
         (urlparse u).fragment⟩ := by
    rw [normalize_url_eq, hparams]
  have h2 : urlparse (normalize_url cfg u) =
      ⟨(if (urlparse u).scheme = [] then cfg.scheme else (urlparse u).scheme),
       (if (urlparse u).netloc = [] then cfg.base_domain else (urlparse u).netloc),
       slashAdj (fixPath (urlparse u).path), [], (urlparse u).query,
       (urlparse u).fragment⟩ := by
    rw [h1]
    exact urlparse_urlunparse _ _ _ _ _ hSok hSlow hNne hNchars hfx_f hfx_q hfx_s
      hpath.2.2
  calc normalize_url cfg (normalize_url cfg u)
      = urlunparse
          ⟨(if (urlparse (normalize_url cfg u)).scheme = []
              then cfg.scheme else (urlparse (normalize_url cfg u)).scheme),
           (if (urlparse (normalize_url cfg u)).netloc = []
              then cfg.base_domain else (urlparse (normalize_url cfg u)).netloc),
           fixPath (urlparse (normalize_url cfg u)).path,
           (urlparse (normalize_url cfg u)).params,
           (urlparse (normalize_url cfg u)).query,
           (urlparse (normalize_url cfg u)).fragment⟩ :=
        normalize_url_eq cfg (normalize_url cfg u)
    _ = normalize_url cfg u := by
        rw [h2]
        simp only
        rw [if_neg (show ¬ ((if (urlparse u).scheme = [] then cfg.scheme
              else (urlparse u).scheme) = []) from
            fun hc => schemeOk_ne_nil hSok hc),
          if_neg (show ¬ ((if (urlparse u).netloc = [] then cfg.base_domain
              else (urlparse u).netloc) = []) from hNne)]
        rw [fixPath_slashAdj _ hfix, h1]
        exact urlunparse_slashAdj _ _ _ _ _ hNne (schemeOk_ne_nil hSok)

/-! ## What the extractors produce -/

/-- A URL either extractor can emit: a `normalize_url` image that passed
`is_valid_link`. -/
def GoodLink (cfg : Config) (u : List Char) : Prop :=
  (∃ s, u = normalize_url cfg s) ∧ is_valid_link cfg u = true

theorem markup_candidate_norm {cfg : Config} {page raw n : List Char}
    (h : markup_candidate cfg page raw = some n) :
    ∃ s, n = normalize_url cfg s := by
  simp only [markup_candidate] at h
  split at h
  · exact absurd h (by simp)
  · split at h
    · exact absurd h (by simp)
    · injection h with h
      exact ⟨_, h.symm⟩

theorem mem_process_markup {cfg : Config} {page : List Char}
    {acc : List (List Char)} {raw u : List Char}
    (h : u ∈ process_markup_link cfg page acc raw) :
    u ∈ acc ∨ GoodLink cfg u := by
  cases hc : markup_candidate cfg page raw with
  | none =>
    simp only [process_markup_link, hc] at h
    exact Or.inl h
  | some n =>
    simp only [process_markup_link, hc] at h
    split at h
    · rename_i hv
      rcases mem_addSet h with h | h
      · exact Or.inl h
      · subst h
        obtain ⟨s, hs⟩ := markup_candidate_norm hc
        exact Or.inr ⟨⟨s, hs⟩, hv⟩
    · exact Or.inl h

theorem mem_foldl_process_markup {cfg : Config} {page : List Char}
    {found : List (List Char)} {acc : List (List Char)} {u : List Char}
    (h : u ∈ found.foldl (process_markup_link cfg page) acc) :
    u ∈ acc ∨ GoodLink cfg u := by
  induction found generalizing acc with
  | nil => exact Or.inl h
  | cons a t ih =>
    rcases ih h with h1 | h1
    · exact mem_process_markup h1
    · exact Or.inr h1

theorem mem_extract_go {cfg : Config} {page : List Char} {pats : List PatRun}
    {acc : List (List Char)} {u : List Char}
    (h : u ∈ pats.foldl
      (fun acc pr =>
        match pr with
        | .err => acc
        | .ok found => found.foldl (process_markup_link cfg page) acc) acc) :
    u ∈ acc ∨ GoodLink cfg u := by
  induction pats generalizing acc with
  | nil => exact Or.inl h
  | cons a t ih =>
    cases a with
    | err => exact ih h
    | ok found =>
      rcases ih h with h1 | h1
      · exact mem_foldl_process_markup h1
      · exact Or.inr h1

theorem mem_extract_links_run {cfg : Config} {page : List Char}
    {pats : List PatRun} {u : List Char}
    (h : u ∈ extract_links_run cfg page pats) : GoodLink cfg u := by
  unfold extract_links_run at h
  rcases mem_extract_go h with h | h
  · simp at h
  · exact h

theorem mem_process_mined {cfg : Config} {acc : List (List Char)}
    {path u : List Char} (h : u ∈ process_mined_path cfg acc path) :
    u ∈ acc ∨ GoodLink cfg u := by
  simp only [process_mined_path] at h
  split at h
  · rename_i hv
    rcases mem_addSet h with h | h
    · exact Or.inl h
    · subst h
      exact Or.inr ⟨⟨_, rfl⟩, hv⟩
  · exact Or.inl h

theorem mem_foldl_process_mined {cfg : Config} {found : List (List Char)}
    {acc : List (List Char)} {u : List Char}
    (h : u ∈ found.foldl (process_mined_path cfg) acc) :
    u ∈ acc ∨ GoodLink cfg u := by
  induction found generalizing acc with
  | nil => exact Or.inl h
  | cons a t ih =>
    rcases ih h with h1 | h1
    · exact mem_process_mined h1
    · exact Or.inr h1

theorem mem_find_potential_paths_go {cfg : Config} {pats : List PatRun}
    {acc : List (List Char)} {u : List Char}
    (h : u ∈ find_potential_paths_go cfg pats acc) : u ∈ acc ∨ GoodLink cfg u := by
  induction pats generalizing acc with
  | nil => exact Or.inl h
  | cons a t ih =>
    cases a with
    | err => exact Or.inl h
    | ok found =>
      rcases ih h with h1 | h1
      · exact mem_foldl_process_mined h1
      · exact Or.inr h1

theorem mem_find_potential_paths_run {cfg : Config} {pats : List PatRun}
    {u : List Char} (h : u ∈ find_potential_paths_run cfg pats) :
    GoodLink cfg u := by
  unfold find_potential_paths_run at h
  rcases mem_find_potential_paths_go h with h | h
  · simp at h
  · exact h

theorem mem_link_union {cfg : Config} {page : List Char}
    {markup mining : List PatRun} {u : List Char}
    (h : u ∈ (find_potential_paths_run cfg mining).foldl addSet
      (extract_links_run cfg page markup)) : GoodLink cfg u := by
  rcases mem_foldl_addSet h with h | h
  · exact mem_extract_links_run h
  · exact mem_find_potential_paths_run h

theorem seed_links_good {cfg : Config} {world : List Char → FetchOutcome}
    {u : List Char} (h : u ∈ seed_links cfg world) : GoodLink cfg u := by
  unfold seed_links at h
  split at h
  · exact mem_link_union h
  · simp at h

/-! ## The fetch step, characterised -/

theorem fetch_url_spec (cfg : Config) (world : List Char → FetchOutcome)
    (url : List Char) (depth : Nat) (st : CrawlState) :
    ∃ rec ds df,
      (fetch_url cfg world url depth st).1 =
        { st with
            stats_total := st.stats_total + 1,
            stats_success := st.stats_success + ds,
            stats_failed := st.stats_failed + df,
            url_data := st.url_data ++ [(url, rec)] } ∧
      ds + df = 1 ∧ rec.depth = depth ∧
      ∀ l ∈ (fetch_url cfg world url depth st).2.1, GoodLink cfg l := by
  cases hw : world url with
  | response status markup mining =>
    refine ⟨.success status depth, 1, 0, ?_, rfl, rfl, ?_⟩
    · simp [fetch_url, hw]
    · intro l hl
      simp only [fetch_url, hw] at hl
      exact mem_link_union hl
  | connError =>
    refine ⟨.failure .connRefused depth, 0, 1, ?_, rfl, rfl, ?_⟩
    · simp [fetch_url, hw]
    · intro l hl
      simp [fetch_url, hw] at hl
  | timeout =>
    refine ⟨.failure .timeout depth, 0, 1, ?_, rfl, rfl, ?_⟩
    · simp [fetch_url, hw]
    · intro l hl
      simp [fetch_url, hw] at hl
  | otherError =>
    refine ⟨.failure .otherError depth, 0, 1, ?_, rfl, rfl, ?_⟩
    · simp [fetch_url, hw]
    · intro l hl
      simp [fetch_url, hw] at hl

/-- The definitional unfolding of one `_threaded_crawl` step. -/
theorem crawl_loop_cons (cfg : Config) (world : List Char → FetchOutcome)
    (fuel : Nat) (st : CrawlState) (url : List Char) (depth : Nat)
    (rest : List (List Char × Nat)) :
    crawl_loop cfg world (fuel + 1) st ((url, depth) :: rest) =
      if url ∉ st.visited ∧ depth ≤ cfg.max_depth then
        (let st1 := { st with visited := addSet st.visited url }
         let r := fetch_url cfg world url depth st1
         let st2 := { r.1 with
           discovered := addSet r.1.discovered url,
           stats_total := r.1.stats_total + 1 }
         let q2 :=
           if r.2.2 = 200 ∧ depth < cfg.max_depth then
             rest ++ (r.2.1.filter (fun l => l ∉ st2.visited)).map
               (fun l => (l, depth + 1))
           else rest
         crawl_loop cfg world fuel st2 q2)
      else crawl_loop cfg world fuel st rest := rfl

/-! ## Crawl-loop invariants -/

theorem goodLink_origin {cfg : Config} {u : List Char} (hcfg : ConfigOk cfg)
    (h : GoodLink cfg u) : (urlparse u).netloc = cfg.base_domain := by
  obtain ⟨⟨s, rfl⟩, hv⟩ := h
  exact valid_normalize_netloc cfg s hcfg hv

theorem crawl_loop_zero (cfg : Config) (world : List Char → FetchOutcome)
    (st : CrawlState) (q : List (List Char × Nat)) :
    crawl_loop cfg world 0 st q = st := rfl

theorem crawl_loop_nilq (cfg : Config) (world : List Char → FetchOutcome)
    (fuel : Nat) (st : CrawlState) :
    crawl_loop cfg world fuel st [] = st := by
  cases fuel <;> rfl

/-- Depth invariant: records are only ever written at a dispatched depth,
and dispatch requires `depth ≤ max_depth`. -/
theorem crawl_loop_depth (cfg : Config) (world : List Char → FetchOutcome) :
    ∀ fuel st q,
      (∀ p ∈ st.url_data, VisitRecord.depth p.2 ≤ cfg.max_depth) →
      ∀ p ∈ (crawl_loop cfg world fuel st q).url_data,
        VisitRecord.depth p.2 ≤ cfg.max_depth := by
  intro fuel
  induction fuel with
  | zero =>
    intro st q h
    rw [crawl_loop_zero]
    exact h
  | succ n ih =>
    intro st q h
    cases q with
    | nil =>
      rw [crawl_loop_nilq]
      exact h
    | cons hd tl =>
      obtain ⟨url, depth⟩ := hd
      rw [crawl_loop_cons]
      split
      · rename_i hcond
        obtain ⟨rec, ds, df, hstate, hsum, hdep, hgood⟩ :=
          fetch_url_spec cfg world url depth { st with visited := addSet st.visited url }
        apply ih
        intro p hp
        simp only [hstate] at hp
        rcases List.mem_append.mp hp with hp | hp
        · exact h p hp
        · have : p = (url, rec) := by simpa using hp
          rw [this, hdep]
          exact hcond.2
      · exact ih st tl h

/-- Key-uniqueness invariant: a record is appended only for a URL just
claimed out of `visited`, and every existing key is already in `visited`. -/
theorem crawl_loop_nodup (cfg : Config) (world : List Char → FetchOutcome) :
    ∀ fuel st q,
      ((st.url_data.map Prod.fst).Nodup ∧ ∀ p ∈ st.url_data, p.1 ∈ st.visited) →
      ((crawl_loop cfg world fuel st q).url_data.map Prod.fst).Nodup ∧
        ∀ p ∈ (crawl_loop cfg world fuel st q).url_data,
          p.1 ∈ (crawl_loop cfg world fuel st q).visited := by
  intro fuel
  induction fuel with
  | zero =>
    intro st q h
    rw [crawl_loop_zero]
    exact h
  | succ n ih =>
    intro st q h
    cases q with
    | nil =>
      rw [crawl_loop_nilq]
      exact h
    | cons hd tl =>
      obtain ⟨url, depth⟩ := hd
      rw [crawl_loop_cons]
      split
      · rename_i hcond
        obtain ⟨rec, ds, df, hstate, hsum, hdep, hgood⟩ :=
          fetch_url_spec cfg world url depth { st with visited := addSet st.visited url }
        apply ih
        constructor
        · simp only [hstate, List.map_append, List.map_cons, List.map_nil]
          rw [List.nodup_append]
          refine ⟨h.1, by simp, ?_⟩
          intro x hx hx2
          simp only [List.mem_singleton] at hx2
          subst hx2
          obtain ⟨p, hp, hpe⟩ := List.mem_map.mp hx
          have hv : p.1 ∈ st.visited := h.2 p hp
          rw [hpe] at hv
          exact hcond.1 hv
        · intro p hp
          simp only [hstate] at hp ⊢
          rcases List.mem_append.mp hp with hp | hp
          · exact mem_addSet_left (h.2 p hp)
          · have : p = (url, rec) := by simpa using hp
            rw [this]
            exact self_mem_addSet _ _
      · exact ih st tl h

/-- Same-origin invariant: every URL in the visited set, the discovered
set, the record map and the pending queue parses to the origin host. -/
theorem crawl_loop_origin (cfg : Config) (world : List Char → FetchOutcome)
    (hcfg : ConfigOk cfg) :
    ∀ fuel st q,
      (∀ u ∈ st.visited, (urlparse u).netloc = cfg.base_domain) →
      (∀ u ∈ st.discovered, (urlparse u).netloc = cfg.base_domain) →
      (∀ p ∈ st.url_data, (urlparse p.1).netloc = cfg.base_domain) →
      (∀ p ∈ q, (urlparse (Prod.fst p)).netloc = cfg.base_domain) →
      (∀ u ∈ (crawl_loop cfg world fuel st q).visited,
        (urlparse u).netloc = cfg.base_domain) ∧
      (∀ u ∈ (crawl_loop cfg world fuel st q).discovered,
        (urlparse u).netloc = cfg.base_domain) ∧
      (∀ p ∈ (crawl_loop cfg world fuel st q).url_data,
        (urlparse p.1).netloc = cfg.base_domain) := by
  intro fuel
  induction fuel with
  | zero =>
    intro st q h1 h2 h3 _
    rw [crawl_loop_zero]
    exact ⟨h1, h2, h3⟩
  | succ n ih =>
    intro st q h1 h2 h3 hq
    cases q with
    | nil =>
      rw [crawl_loop_nilq]
      exact ⟨h1, h2, h3⟩
    | cons hd tl =>
      obtain ⟨url, depth⟩ := hd
      have hurl : (urlparse url).netloc = cfg.base_domain := hq (url, depth) (by simp)
      rw [crawl_loop_cons]
      split
      · rename_i hcond
        obtain ⟨rec, ds, df, hstate, hsum, hdep, hgood⟩ :=
          fetch_url_spec cfg world url depth { st with visited := addSet st.visited url }
        apply ih
        · intro u hu
          simp only [hstate] at hu
          rcases mem_addSet hu with hu | hu
          · exact h1 u hu
          · exact hu ▸ hurl
        · intro u hu
          simp only [hstate] at hu
          rcases mem_addSet hu with hu | hu
          · exact h2 u hu
          · exact hu ▸ hurl
        · intro p hp
          simp only [hstate] at hp
          rcases List.mem_append.mp hp with hp | hp
          · exact h3 p hp
          · have he : p = (url, rec) := by simpa using hp
            rw [he]
            exact hurl
        · intro p hp
          split at hp
          · rcases List.mem_append.mp hp with hp | hp
            · exact hq p (by simp [hp])
            · obtain ⟨l, hl, hle⟩ := List.mem_map.mp hp
              have hlg : GoodLink cfg l := hgood l (List.mem_of_mem_filter hl)
              rw [← hle]
              exact goodLink_origin hcfg hlg
          · exact hq p (by simp [hp])
      · exact ih st tl h1 h2 h3 fun p hp => hq p (by simp [hp])

/-- With `max_depth = 0`, a queue whose entries all sit at depth ≥ 1 is
drained without dispatching anything. -/
theorem crawl_loop_skip (cfg : Config) (world : List Char → FetchOutcome)
    (h0 : cfg.max_depth = 0) :
    ∀ fuel st q, (∀ p ∈ q, 1 ≤ Prod.snd p) →
      crawl_loop cfg world fuel st q = st := by
  intro fuel
  induction fuel with
  | zero =>
    intro st q _
    rw [crawl_loop_zero]
  | succ n ih =>
    intro st q hq
    cases q with
    | nil => rw [crawl_loop_nilq]
    | cons hd tl =>
      obtain ⟨url, depth⟩ := hd
      rw [crawl_loop_cons]
      rw [if_neg]
      · exact ih st tl fun p hp => hq p (by simp [hp])
      · intro hcond
        have hd1 : 1 ≤ depth := hq (url, depth) (by simp)
        rw [h0] at hcond
        omega

/-- Stats invariant: each dispatched entry adds one record, two to
`total_requests` and one to `successful + failed`. -/
theorem crawl_loop_stats (cfg : Config) (world : List Char → FetchOutcome) :
    ∀ fuel st q,
      (st.stats_total = 2 * (st.url_data.length - 1) ∧
        st.stats_success + st.stats_failed = st.url_data.length ∧
        1 ≤ st.url_data.length) →
      ((crawl_loop cfg world fuel st q).stats_total =
          2 * ((crawl_loop cfg world fuel st q).url_data.length - 1) ∧
        (crawl_loop cfg world fuel st q).stats_success +
            (crawl_loop cfg world fuel st q).stats_failed =
          (crawl_loop cfg world fuel st q).url_data.length ∧
        1 ≤ (crawl_loop cfg world fuel st q).url_data.length) := by
  intro fuel
  induction fuel with
  | zero =>
    intro st q h
    rw [crawl_loop_zero]
    exact h
  | succ n ih =>
    intro st q h
    cases q with
    | nil =>
      rw [crawl_loop_nilq]
      exact h
    | cons hd tl =>
      obtain ⟨url, depth⟩ := hd
      rw [crawl_loop_cons]
      split
      · rename_i hcond
        obtain ⟨rec, ds, df, hstate, hsum, hdep, hgood⟩ :=
          fetch_url_spec cfg world url depth { st with visited := addSet st.visited url }
        apply ih
        simp only [hstate, List.length_append, List.length_cons, List.length_nil]
        obtain ⟨i1, i2, i3⟩ := h
        refine ⟨?_, ?_, ?_⟩
        · omega
        · omega
        · omega
      · exact ih st tl h

/-! ## Concrete runs used by counterexamples and witnesses -/

/-- A crawler started on `http://h` with depth 3 (`AdvancedWebCrawler("http://h", max_depth=3)`). -/
def cfgH : Config := mkConfig "http://h".toList 3

/-- A crawler started on `http://h` with depth 0. -/
def cfg0 : Config := mkConfig "http://h".toList 0

/-- A network where every connection is refused. -/
def worldDown : List Char → FetchOutcome := fun _ => FetchOutcome.connError

/-- A network where only the seed responds (status 200, empty body). -/
def worldSeedOnly : List Char → FetchOutcome := fun u =>
  if u = "http://h".toList then FetchOutcome.response 200 [] []
  else FetchOutcome.connError

/-- Seed links to `/a`; `/a` answers 404 with a body whose markup holds a
valid link `/b`. -/
def worldC4 : List Char → FetchOutcome := fun u =>
  if u = "http://h".toList then
    FetchOutcome.response 200 [PatRun.ok ["/a".toList]] []
  else if u = "http://h/a".toList then
    FetchOutcome.response 404 [PatRun.ok ["/b".toList]] []
  else FetchOutcome.connError

/-- Seed page links to `/`, the normalized spelling of the seed itself. -/
def worldC6 : List Char → FetchOutcome := fun u =>
  if u = "http://h".toList then
    FetchOutcome.response 200 [PatRun.ok ["/".toList]] []
  else if u = "http://h/".toList then FetchOutcome.response 200 [] []
  else FetchOutcome.connError

/-- Seed page carries one link `/a`. -/
def worldC9 : List Char → FetchOutcome := fun u =>
  if u = "http://h".toList then
    FetchOutcome.response 200 [PatRun.ok ["/a".toList]] []
  else FetchOutcome.connError

/-! ## Claims -/

/-- Claim C1, counterexample: with the seed connection refused, the run
ends with `failed_requests = 0` (the claim says 1) and never reaches
reporting (the claim says it still proceeds to reporting). -/
theorem crawler_c1_cex :
    (crawl cfgH worldDown 5).state.stats_failed = 0 ∧
      (crawl cfgH worldDown 5).reported = false := by
  decide

/-- Claim C1, amended: if the seed URL is unreachable, `crawl` returns at
once with `successful_requests = 0`, `failed_requests = 0` (the exception
path touches no counter), an empty discovered set, and without reaching
`display_results`. -/
theorem crawler_c1 (cfg : Config) (world : List Char → FetchOutcome) (fuel : Nat)
    (hw : world cfg.base_url = FetchOutcome.connError) :
    (crawl cfg world fuel).state.stats_success = 0 ∧
      (crawl cfg world fuel).state.stats_failed = 0 ∧
      (crawl cfg world fuel).state.discovered = [] ∧
      (crawl cfg world fuel).reported = false := by
  simp [crawl, hw]

theorem crawler_c1_witness :
    (crawl cfgH worldDown 5).state.stats_success = 0 ∧
      (crawl cfgH worldDown 5).state.stats_failed = 0 ∧
      (crawl cfgH worldDown 5).state.discovered = [] ∧
      (crawl cfgH worldDown 5).reported = false :=
  crawler_c1 cfgH worldDown 5 rfl

/-- Claim C2, counterexample: `normalize_url` keeps both the query and the
fragment — the normalized result of `http://h/p?q=1#f` still contains `?`
and `#`. -/
theorem crawler_c2_cex :
    ('?' ∈ normalize_url cfgH "http://h/p?q=1#f".toList) ∧
      ('#' ∈ normalize_url cfgH "http://h/p?q=1#f".toList) := by
  decide

/-- Claim C2, amended: fragment/query stripping happens only in markup
extraction, whose per-candidate truncation `split('#')[0].split('?')[0]`
never leaves a `#` or `?`; `normalize_url` itself preserves them, so a
free-text-mined path keeps its query (second conjunct). -/
theorem crawler_c2 :
    (∀ l : List Char, (strip_frag_query l).contains '#' = false ∧
        (strip_frag_query l).contains '?' = false) ∧
      find_potential_paths_run cfgH [PatRun.ok ["/p?x=1".toList]] =
        ["http://h/p?x=1".toList] := by
  constructor
  · intro l
    have h1 : '#' ∉ strip_frag_query l := by
      intro h
      unfold strip_frag_query at h
      have h2 := (mem_takeWhile (mem_takeWhile h).1).2
      simp at h2
    have h2 : '?' ∉ strip_frag_query l := by
      intro h
      unfold strip_frag_query at h
      have h3 := (mem_takeWhile h).2
      simp at h3
    constructor
    · simpa using h1
    · simpa using h2
  · decide

/-- Claim C3, counterexample: normalization is not idempotent —
`normalize(http://h//) = http://h` but `normalize(http://h) = http://h/`. -/
theorem crawler_c3_cex :
    decide (normalize_url cfgH (normalize_url cfgH "http://h//".toList) =
      normalize_url cfgH "http://h//".toList) = false := by
  decide

/-- Claim C3, amended: `normalize_url` is idempotent for every well-formed
URL whose path section carries no `;` parameter segment and is not a
nonempty run of slashes (which trailing-slash stripping collapses to an
empty path), under a well-formed crawler configuration. -/
theorem crawler_c3 (cfg : Config) (u : List Char) (hcfg : ConfigOk cfg)
    (hparams : (urlparse u).params = []) (hsemi : ';' ∉ (urlparse u).path)
    (hfix : fixPath (urlparse u).path ≠ []) :
    normalize_url cfg (normalize_url cfg u) = normalize_url cfg u :=
  normalize_url_idem cfg u hcfg hparams hsemi hfix

theorem crawler_c3_witness :
    normalize_url cfgH (normalize_url cfgH "/a/b".toList) =
      normalize_url cfgH "/a/b".toList :=
  crawler_c3 cfgH "/a/b".toList (by decide) (by decide) (by decide) (by decide)

/-- Claim C4, counterexample: the 404 answer for `/a` is recorded as a
status record (`success 404`), not a `Failure` record, and the valid link
`/b` its body carries is never fed back into the frontier even though
`depth 1 < maxDepth 3`. -/
theorem crawler_c4_cex :
    (crawl cfgH worldC4 10).state.url_data =
        [("http://h".toList, VisitRecord.success 200 0),
         ("http://h/a".toList, VisitRecord.success 404 1)] ∧
      ((crawl cfgH worldC4 10).state.visited.contains "http://h/b".toList)
        = false := by
  decide

/-- Claim C4, amended: a fetch answered with any HTTP status is recorded
as a response record and counted in `successful_requests`; the run
continues, but the links extracted from the body are fed back into the
frontier only when the status is exactly 200 — for any other status they
are discarded and the queue continues unchanged. -/
theorem crawler_c4 (cfg : Config) (world : List Char → FetchOutcome)
    (fuel : Nat) (st : CrawlState) (url : List Char) (depth : Nat)
    (rest : List (List Char × Nat)) (s : Nat) (markup mining : List PatRun)
    (h1 : url ∉ st.visited) (h2 : depth ≤ cfg.max_depth)
    (hw : world url = FetchOutcome.response s markup mining) (hs : ¬ s = 200) :
    crawl_loop cfg world (fuel + 1) st ((url, depth) :: rest) =
      crawl_loop cfg world fuel
        { st with
            visited := addSet st.visited url,
            discovered := addSet st.discovered url,
            url_data := st.url_data ++ [(url, VisitRecord.success s depth)],
            stats_total := st.stats_total + 1 + 1,
            stats_success := st.stats_success + 1 } rest := by
  rw [crawl_loop_cons, if_pos ⟨h1, h2⟩]
  simp only [fetch_url, hw]
  rw [if_neg (fun hc => hs hc.1)]

/-- The state just after the seed fetch in the `worldC4` run. -/
def stC4 : CrawlState :=
  ⟨["http://h".toList], ["http://h".toList],
   [("http://h".toList, VisitRecord.success 200 0)], 0, 1, 0⟩

theorem crawler_c4_witness :
    crawl_loop cfgH worldC4 3 stC4 [("http://h/a".toList, 1)] =
      crawl_loop cfgH worldC4 2
        { stC4 with
            visited := addSet stC4.visited "http://h/a".toList,
            discovered := addSet stC4.discovered "http://h/a".toList,
            url_data := stC4.url_data ++
              [("http://h/a".toList, VisitRecord.success 404 1)],
            stats_total := stC4.stats_total + 1 + 1,
            stats_success := stC4.stats_success + 1 } [] :=
  crawler_c4 cfgH worldC4 2 stC4 "http://h/a".toList 1 [] 404
    [PatRun.ok ["/b".toList]] [] (by decide) (by decide) (by decide) (by decide)

/-- Claim C5, counterexample: in free-text path mining, a failing pattern
abandons the remaining patterns — the valid `/x` match of the second
pattern is returned when the first pattern succeeds but lost when the
first pattern fails. -/
theorem crawler_c5_cex :
    find_potential_paths_run cfgH [PatRun.ok ["/x".toList]] =
        ["http://h/x".toList] ∧
      find_potential_paths_run cfgH [PatRun.err, PatRun.ok ["/x".toList]]
        = [] := by
  decide

/-- Claim C5, amended: markup-reference extraction skips a failing pattern
and still runs every remaining pattern; free-text path mining instead
catches the failure around the whole pattern sequence, returning only the
matches accumulated before it and abandoning all later patterns. Neither
failure aborts the page's processing. -/
theorem crawler_c5 :
    (∀ (cfg : Config) (page : List Char) (ps1 ps2 : List PatRun),
        extract_links_run cfg page (ps1 ++ PatRun.err :: ps2) =
          extract_links_run cfg page (ps1 ++ ps2)) ∧
      (∀ (cfg : Config) (rest : List PatRun) (acc : List (List Char)),
        find_potential_paths_go cfg (PatRun.err :: rest) acc = acc) := by
  constructor
  · intro cfg page ps1 ps2
    unfold extract_links_run
    rw [List.foldl_append, List.foldl_append]
    rfl
  · intro cfg rest acc
    rfl

/-- Reduction of `crawl` on a 200 seed: record the seed, then run the loop on the
initial queue. -/
theorem crawl_200 (cfg : Config) (world : List Char → FetchOutcome)
    (fuel : Nat) (status : Nat) (markup mining : List PatRun)
    (hw : world cfg.base_url = FetchOutcome.response status markup mining)
    (hst : status = 200) :
    crawl cfg world fuel =
      ⟨crawl_loop cfg world fuel
        ⟨[cfg.base_url], [cfg.base_url],
         [(cfg.base_url, VisitRecord.success status 0)], 0, 1, 0⟩
        (initial_queue cfg world), true⟩ := by
  simp [crawl, hw, hst, addSet]

/-- Reduction of `crawl` on a non-200 seed: record the seed and stop (no loop). -/
theorem crawl_non200 (cfg : Config) (world : List Char → FetchOutcome)
    (fuel : Nat) (status : Nat) (markup mining : List PatRun)
    (hw : world cfg.base_url = FetchOutcome.response status markup mining)
    (hst : ¬ status = 200) :
    crawl cfg world fuel =
      ⟨⟨[cfg.base_url], [cfg.base_url],
        [(cfg.base_url, VisitRecord.success status 0)], 0, 1, 0⟩, true⟩ := by
  simp [crawl, hw, hst, addSet]

/-- Claim C6, counterexample: the seed is stored un-normalized
(`base_url.rstrip('/')`), so the same normalized resource is fetched and
recorded twice — as `http://h` (the raw seed) and as `http://h/` (its
normalized spelling, rediscovered through a link to `/`), two records
whose keys normalize identically. -/
theorem crawler_c6_cex :
    (crawl cfgH worldC6 10).state.url_data =
        [("http://h".toList, VisitRecord.success 200 0),
         ("http://h/".toList, VisitRecord.success 200 1)] ∧
      normalize_url cfgH "http://h".toList =
        normalize_url cfgH "http://h/".toList := by
  decide

/-- Claim C6, amended: uniqueness holds at the exact-string level — every
URL string key has at most one `url_data` record in any completed run
(non-seed URLs are normalized before deduplication, but the seed's raw
spelling may coexist with its normalized spelling). -/
theorem crawler_c6 (cfg : Config) (world : List Char → FetchOutcome)
    (fuel : Nat) :
    (((crawl cfg world fuel).state.url_data).map Prod.fst).Nodup := by
  cases hw : world cfg.base_url with
  | response status markup mining =>
    by_cases hst : status = 200
    · rw [crawl_200 cfg world fuel status markup mining hw hst]
      refine (crawl_loop_nodup cfg world fuel _ _ ⟨by simp, ?_⟩).1
      intro p hp
      have he : p = (cfg.base_url, VisitRecord.success status 0) := by
        simpa using hp
      rw [he]
      simp
    · rw [crawl_non200 cfg world fuel status markup mining hw hst]
      simp
  | connError => simp [crawl, hw]
  | timeout => simp [crawl, hw]
  | otherError => simp [crawl, hw]

/-- Claim C7 (confirmed): no `url_data` record carries a depth above
`max_depth` — entries are dispatched only when `depth ≤ max_depth`, and
links of a depth-`d` page are enqueued at `d + 1` only when
`d < max_depth`. -/
theorem crawler_c7 (cfg : Config) (world : List Char → FetchOutcome)
    (fuel : Nat) :
    ∀ p ∈ (crawl cfg world fuel).state.url_data,
      VisitRecord.depth p.2 ≤ cfg.max_depth := by
  intro p hp
  cases hw : world cfg.base_url with
  | response status markup mining =>
    by_cases hst : status = 200
    · rw [crawl_200 cfg world fuel status markup mining hw hst] at hp
      refine crawl_loop_depth cfg world fuel _ _ ?_ p hp
      intro p2 hp2
      have he : p2 = (cfg.base_url, VisitRecord.success status 0) := by
        simpa using hp2
      rw [he]
      exact Nat.zero_le _
    · rw [crawl_non200 cfg world fuel status markup mining hw hst] at hp
      have he : p = (cfg.base_url, VisitRecord.success status 0) := by
        simpa using hp
      rw [he]
      exact Nat.zero_le _
  | connError => simp [crawl, hw] at hp
  | timeout => simp [crawl, hw] at hp
  | otherError => simp [crawl, hw] at hp

theorem crawler_c7_witness :
    VisitRecord.depth (VisitRecord.success 200 0) ≤ cfgH.max_depth :=
  crawler_c7 cfgH worldSeedOnly 5
    ("http://h".toList, VisitRecord.success 200 0) (by decide)

/-- Claim C8 (confirmed): a URL whose host differs from the crawl's fixed
origin host never appears in the visited set, the discovered set or the
record map — every candidate from either extraction heuristic is
normalized (which substitutes the origin host for a missing one) and
checked against the origin host before enqueueing, and the seed itself
parses to the origin host. -/
theorem crawler_c8 (raw : List Char) (d : Nat)
    (world : List Char → FetchOutcome) (fuel : Nat)
    (hd : (mkConfig raw d).base_domain ≠ [])
    (hseed : (urlparse (mkConfig raw d).base_url).netloc =
      (mkConfig raw d).base_domain) :
    ∀ u : List Char,
      (u ∈ (crawl (mkConfig raw d) world fuel).state.visited ∨
        u ∈ (crawl (mkConfig raw d) world fuel).state.discovered ∨
        u ∈ ((crawl (mkConfig raw d) world fuel).state.url_data.map Prod.fst)) →
      (urlparse u).netloc = (mkConfig raw d).base_domain := by
  have hcfg := mkConfig_ok raw d hd
  intro u hu
  have hseedmem : ∀ v ∈ [(mkConfig raw d).base_url],
      (urlparse v).netloc = (mkConfig raw d).base_domain := by
    intro v hv
    have : v = (mkConfig raw d).base_url := by simpa using hv
    exact this ▸ hseed
  cases hw : world (mkConfig raw d).base_url with
  | response status markup mining =>
    by_cases hst : status = 200
    · rw [crawl_200 (mkConfig raw d) world fuel status markup mining hw hst] at hu
      have hloop := crawl_loop_origin (mkConfig raw d) world hcfg fuel
        ⟨[(mkConfig raw d).base_url], [(mkConfig raw d).base_url],
         [((mkConfig raw d).base_url, VisitRecord.success status 0)], 0, 1, 0⟩
        (initial_queue (mkConfig raw d) world)
        hseedmem hseedmem
        (by
          intro p hp
          have : p = ((mkConfig raw d).base_url, VisitRecord.success status 0) := by
            simpa using hp
          rw [this]
          exact hseed)
        (by
          intro p hp
          unfold initial_queue at hp
          obtain ⟨l, hl, hle⟩ := List.mem_map.mp hp
          have hg : GoodLink (mkConfig raw d) l :=
            seed_links_good (List.mem_of_mem_filter hl)
          rw [← hle]
          exact goodLink_origin hcfg hg)
      rcases hu with hu | hu | hu
      · exact hloop.1 u hu
      · exact hloop.2.1 u hu
      · obtain ⟨p, hp, hpe⟩ := List.mem_map.mp hu
        rw [← hpe]
        exact hloop.2.2 p hp
    · rw [crawl_non200 (mkConfig raw d) world fuel status markup mining hw hst] at hu
      rcases hu with hu | hu | hu
      · exact hseedmem u hu
      · exact hseedmem u hu
      · have : u = (mkConfig raw d).base_url := by simpa using hu
        exact this ▸ hseed
  | connError =>
    simp only [crawl, hw] at hu
    rcases hu with hu | hu | hu
    · rcases mem_addSet hu with hu | hu
      · simp at hu
      · exact hu ▸ hseed
    · simp at hu
    · simp at hu
  | timeout =>
    simp only [crawl, hw] at hu
    rcases hu with hu | hu | hu
    · rcases mem_addSet hu with hu | hu
      · simp at hu
      · exact hu ▸ hseed
    · simp at hu
    · simp at hu
  | otherError =>
    simp only [crawl, hw] at hu
    rcases hu with hu | hu | hu
    · rcases mem_addSet hu with hu | hu
      · simp at hu
      · exact hu ▸ hseed
    · simp at hu
    · simp at hu

theorem crawler_c8_witness :
    (urlparse "http://h".toList).netloc = (mkConfig "http://h".toList 3).base_domain :=
  crawler_c8 "http://h".toList 3 worldSeedOnly 5 (by decide) (by decide)
    "http://h".toList (Or.inl (by decide))

/-- Claim C9, counterexample: with `max_depth = 0` the seed's links are
still appended to the pending queue at depth 1 — the queue `crawl` hands
to `_threaded_crawl` is nonempty. -/
theorem crawler_c9_cex :
    initial_queue cfg0 worldC9 = [("http://h/a".toList, 1)] ∧
      cfg0.max_depth = 0 := by
  decide

/-- Claim C9, amended: with `max_depth = 0` only the seed URL is fetched —
the seed's links are enqueued at depth 1 but every queue entry fails the
`depth ≤ max_depth` dispatch check, so the visited set stays at the seed
and every record belongs to the seed. -/
theorem crawler_c9 (cfg : Config) (world : List Char → FetchOutcome)
    (fuel : Nat) (h0 : cfg.max_depth = 0) :
    (crawl cfg world fuel).state.visited = [cfg.base_url] ∧
      ∀ p ∈ (crawl cfg world fuel).state.url_data, p.1 = cfg.base_url := by
  cases hw : world cfg.base_url with
  | response status markup mining =>
    by_cases hst : status = 200
    · rw [crawl_200 cfg world fuel status markup mining hw hst]
      rw [crawl_loop_skip cfg world h0 fuel _ _ ?depths]
      case depths =>
        intro p hp
        unfold initial_queue at hp
        obtain ⟨l, _, hle⟩ := List.mem_map.mp hp
        rw [← hle]
      constructor
      · rfl
      · intro p hp
        have : p = (cfg.base_url, VisitRecord.success status 0) := by
          simpa using hp
        rw [this]
    · rw [crawl_non200 cfg world fuel status markup mining hw hst]
      constructor
      · rfl
      · intro p hp
        have : p = (cfg.base_url, VisitRecord.success status 0) := by
          simpa using hp
        rw [this]
  | connError =>
    constructor
    · simp [crawl, hw, addSet]
    · intro p hp
      simp [crawl, hw] at hp
  | timeout =>
    constructor
    · simp [crawl, hw, addSet]
    · intro p hp
      simp [crawl, hw] at hp
  | otherError =>
    constructor
    · simp [crawl, hw, addSet]
    · intro p hp
      simp [crawl, hw] at hp

theorem crawler_c9_witness :
    (crawl cfg0 worldC9 5).state.visited = [cfg0.base_url] :=
  (crawler_c9 cfg0 worldC9 5 (by decide)).1

/-- Claim C10 (confirmed): the seed fetch bumps `successful_requests` but
never `total_requests`, while every loop fetch bumps `total_requests`
twice (once in `fetch_url`, once when its completion is consumed) and
`successful + failed` once; hence in every run
`total = 2 * (records - 1)` and `successful + failed = records`, so
`total` does not in general equal `successful + failed`, and a run that
fetches only the seed ends with `total = 0` and `successful = 1`. -/
theorem crawler_c10 :
    (∀ (cfg : Config) (world : List Char → FetchOutcome) (fuel : Nat),
        (crawl cfg world fuel).state.stats_total =
          2 * ((crawl cfg world fuel).state.url_data.length - 1) ∧
        (crawl cfg world fuel).state.stats_success +
            (crawl cfg world fuel).state.stats_failed =
          (crawl cfg world fuel).state.url_data.length) ∧
      ((crawl cfgH worldSeedOnly 5).state.stats_total = 0 ∧
        (crawl cfgH worldSeedOnly 5).state.stats_success = 1 ∧
        decide ((crawl cfgH worldSeedOnly 5).state.stats_total =
          (crawl cfgH worldSeedOnly 5).state.stats_success +
            (crawl cfgH worldSeedOnly 5).state.stats_failed) = false) := by
  constructor
  · intro cfg world fuel
    cases hw : world cfg.base_url with
    | response status markup mining =>
      by_cases hst : status = 200
      · rw [crawl_200 cfg world fuel status markup mining hw hst]
        have h := crawl_loop_stats cfg world fuel
          ⟨[cfg.base_url], [cfg.base_url],
           [(cfg.base_url, VisitRecord.success status 0)], 0, 1, 0⟩
          (initial_queue cfg world) ⟨by simp, by simp, by simp⟩
        exact ⟨h.1, h.2.1⟩
      · rw [crawl_non200 cfg world fuel status markup mining hw hst]
        exact ⟨by simp, by simp⟩
    | connError => refine ⟨by simp [crawl, hw], by simp [crawl, hw]⟩
    | timeout => refine ⟨by simp [crawl, hw], by simp [crawl, hw]⟩
    | otherError => refine ⟨by simp [crawl, hw], by simp [crawl, hw]⟩
  · exact ⟨by decide, by decide, by decide⟩

end Crawler
